import Mathlib

/-!
Verification of the data-acquisition pipeline of the Stock_Predict
repository (src/stock.py and src/US_stock.py), shallowly embedded in Lean.

Conventions of the embedding:
  * SQLite values are modelled by `Cell` (NULL, a number, a text value, or a
    raw datetime object); the `stock_zh_a_hist` table is a `List HistRow` in
    insertion order, and `INSERT OR IGNORE` together with the table's
    `UNIQUE(symbol, date, period, adjust)` constraint is `insertOrIgnore`
    (SQLite treats NULLs in a unique index as distinct from each other, and
    `OR IGNORE` skips a row that violates `NOT NULL`).
  * pandas dataframes are modelled column-major by `DF`: an index (name and
    values) plus labelled columns.
  * Python string comparison (`start_date > end_date` on "%Y-%m-%d" strings,
    SQL `MAX`/`ORDER BY` on TEXT) is code-point lexicographic order,
    modelled by `strLt`.
  * `datetime.strptime(_, "%Y-%m-%d")`, `timedelta(days=1)` and
    `strftime("%Y-%m-%d")` are modelled by `parseYMD`, `nextDay` and
    `formatYMD` over the proleptic Gregorian calendar.
-/

/-! ## Code-point lexicographic string order (Python's `<` on str,
SQLite's ordering on TEXT values) -/

/-- Lexicographic strict order on char lists by code point: Python's
comparison of strings, and SQLite's BINARY collation on (ASCII) text. -/
def charListLt : List Char → List Char → Bool
  | [], [] => false
  | [], _ :: _ => true
  | _ :: _, [] => false
  | a :: as, b :: bs =>
    if a < b then true
    else if b < a then false
    else charListLt as bs

/-- Python's `s1 < s2` on strings. -/
def strLt (a b : String) : Bool := charListLt a.data b.data

/-- Python's `s1 <= s2` / SQL `<=` on text. -/
def strLe (a b : String) : Bool := strLt a b || a == b

theorem charListLt_irrefl (l : List Char) : charListLt l l = false := by
  induction l with
  | nil => rfl
  | cons a as ih => simp [charListLt, ih]

theorem charListLt_trans {a b c : List Char} (h1 : charListLt a b = true)
    (h2 : charListLt b c = true) : charListLt a c = true := by
  induction a generalizing b c with
  | nil =>
    cases b with
    | nil => simp [charListLt] at h1
    | cons y ys =>
      cases c with
      | nil => simp [charListLt] at h2
      | cons z zs => rfl
  | cons x xs ih =>
    cases b with
    | nil => simp [charListLt] at h1
    | cons y ys =>
      cases c with
      | nil => simp [charListLt] at h2
      | cons z zs =>
        simp only [charListLt] at h1 h2 ⊢
        split at h1
        · rename_i hxy
          split at h2
          · rename_i hyz
            simp [lt_trans hxy hyz]
          · split at h2
            · exact absurd h2 (by simp)
            · rename_i hyz hzy
              have : y = z := le_antisymm (not_lt.mp hzy) (not_lt.mp hyz)
              subst this
              simp [hxy]
        · split at h1
          · exact absurd h1 (by simp)
          · rename_i hxy hyx
            have hxey : x = y := le_antisymm (not_lt.mp hyx) (not_lt.mp hxy)
            subst hxey
            split at h2
            · rename_i hxz
              simp [hxz]
            · split at h2
              · exact absurd h2 (by simp)
              · rename_i hxz hzx
                have : x = z := le_antisymm (not_lt.mp hzx) (not_lt.mp hxz)
                subst this
                simp only [lt_irrefl, if_false]
                exact ih h1 h2

theorem charListLt_connex {a b : List Char} (h1 : charListLt a b = false)
    (h2 : charListLt b a = false) : a = b := by
  induction a generalizing b with
  | nil =>
    cases b with
    | nil => rfl
    | cons y ys => simp [charListLt] at h1
  | cons x xs ih =>
    cases b with
    | nil => simp [charListLt] at h2
    | cons y ys =>
      simp only [charListLt] at h1 h2
      split at h1
      · exact absurd h1 (by simp)
      · split at h1
        · rename_i hxy hyx
          rw [if_pos hyx] at h2
          exact absurd h2 (by simp)
        · rename_i hxy hyx
          have hxey : x = y := le_antisymm (not_lt.mp hyx) (not_lt.mp hxy)
          subst hxey
          simp only [lt_irrefl, if_false] at h2
          rw [ih h1 h2]

theorem strLt_irrefl (s : String) : strLt s s = false := charListLt_irrefl _

theorem strLt_trans {a b c : String} (h1 : strLt a b = true)
    (h2 : strLt b c = true) : strLt a c = true := charListLt_trans h1 h2

theorem strLt_connex {a b : String} (h1 : strLt a b = false)
    (h2 : strLt b a = false) : a = b := by
  cases a with
  | mk da =>
    cases b with
    | mk db =>
      have := charListLt_connex (a := da) (b := db) h1 h2
      simp [this]

/-! ## Calendar dates ("%Y-%m-%d" parsing, one-day arithmetic, formatting) -/

/-- A calendar date, as Python's `datetime` carries it (year, month, day). -/
structure SDate where
  y : Nat
  m : Nat
  d : Nat
deriving DecidableEq, Repr

/-- Gregorian leap-year rule (Python's `calendar`/`datetime` rule). -/
def isLeap (y : Nat) : Bool := y % 4 == 0 && (y % 100 != 0 || y % 400 == 0)

/-- Days in a month of a given year. -/
def daysInMonth (y m : Nat) : Nat :=
  if m = 2 then (if isLeap y then 29 else 28)
  else if m = 4 ∨ m = 6 ∨ m = 9 ∨ m = 11 then 30
  else 31

/-- `datetime + timedelta(days=1)` on a calendar date. -/
def nextDay (x : SDate) : SDate :=
  if x.d < daysInMonth x.y x.m then ⟨x.y, x.m, x.d + 1⟩
  else if x.m < 12 then ⟨x.y, x.m + 1, 1⟩
  else ⟨x.y + 1, 1, 1⟩

/-- The decimal digit characters, most significant first: `digitChar d` is
the character for digit `d < 10`. -/
def digitChar (d : Nat) : Char :=
  (['0', '1', '2', '3', '4', '5', '6', '7', '8', '9']).getD d '0'

/-- `n` rendered as exactly `k` decimal digits, zero-padded (the behaviour
of `strftime` field widths for in-range values). -/
def padChars : Nat → Nat → List Char
  | 0, _ => []
  | k + 1, n => padChars k (n / 10) ++ [digitChar (n % 10)]

/-- `datetime.strftime("%Y-%m-%d")`. -/
def formatYMD (x : SDate) : String :=
  String.mk (padChars 4 x.y ++ '-' :: (padChars 2 x.m ++ '-' :: padChars 2 x.d))

/-- Split a char list on a separator character (`str.split` keeps empty
pieces). -/
def splitOnChar (sep : Char) (l : List Char) : List (List Char) :=
  l.foldr
    (fun c acc =>
      if c = sep then [] :: acc
      else
        match acc with
        | [] => [[c]]
        | t :: rest => (c :: t) :: rest)
    [[]]

/-- Numeric value of a digit list, most significant first. -/
def digitsToNat (l : List Char) : Nat :=
  l.foldl (fun a c => a * 10 + (c.toNat - '0'.toNat)) 0

def allDigits (l : List Char) : Bool := !l.isEmpty && l.all (·.isDigit)

/-- `datetime.strptime(s, "%Y-%m-%d")`, as an `Option`: three dash-separated
digit groups (up to 4/2/2 digits, zero-padding optional as in `strptime`),
with the month and day-of-month range checks `datetime` performs; `none`
models the `ValueError` the Python call raises. -/
def parseYMD (s : String) : Option SDate :=
  match splitOnChar '-' s.data with
  | [ys, ms, ds] =>
    if allDigits ys && allDigits ms && allDigits ds
        && ys.length ≤ 4 && ms.length ≤ 2 && ds.length ≤ 2 then
      let y := digitsToNat ys
      let m := digitsToNat ms
      let d := digitsToNat ds
      if 1 ≤ y && y ≤ 9999 && 1 ≤ m && m ≤ 12 && 1 ≤ d && d ≤ daysInMonth y m then
        some ⟨y, m, d⟩
      else none
    else none
  | _ => none

theorem padChars_length (k n : Nat) : (padChars k n).length = k := by
  induction k generalizing n with
  | zero => rfl
  | succ k ih => simp [padChars, ih]

theorem charListLt_append {l1 l2 r1 r2 : List Char} (h : l1.length = l2.length) :
    charListLt (l1 ++ r1) (l2 ++ r2) =
      (charListLt l1 l2 || (l1 == l2 && charListLt r1 r2)) := by
  induction l1 generalizing l2 with
  | nil =>
    cases l2 with
    | nil => simp [charListLt]
    | cons y ys => simp at h
  | cons x xs ih =>
    cases l2 with
    | nil => simp at h
    | cons y ys =>
      simp only [List.length_cons, Nat.succ.injEq] at h
      simp only [List.cons_append, charListLt]
      by_cases hxy : x < y
      · simp [hxy, charListLt]
      · by_cases hyx : y < x
        · have hne : ¬(x :: xs == y :: ys) = true := by
            simp only [beq_iff_eq, List.cons.injEq, not_and]
            intro he
            exact absurd he (ne_of_gt hyx)
          simp [hxy, hyx, charListLt, Bool.eq_false_iff.mpr hne]
        · have hxey : x = y := le_antisymm (not_lt.mp hyx) (not_lt.mp hxy)
          subst hxey
          simp only [lt_irrefl, if_false, List.append_eq]
          rw [ih h]
          simp [beq_iff_eq]

theorem digitChar_lt : ∀ d < 10, ∀ e < 10, ((digitChar d < digitChar e) ↔ d < e) := by
  decide

theorem digitChar_inj : ∀ d < 10, ∀ e < 10, digitChar d = digitChar e → d = e := by
  decide

theorem padChars_lt {k a b : Nat} (ha : a < 10 ^ k) (hb : b < 10 ^ k) :
    (charListLt (padChars k a) (padChars k b) = true ↔ a < b) ∧
      (padChars k a = padChars k b ↔ a = b) := by
  induction k generalizing a b with
  | zero =>
    simp only [pow_zero, Nat.lt_one_iff] at ha hb
    subst ha; subst hb
    simp [padChars, charListLt]
  | succ k ih =>
    have ha' : a / 10 < 10 ^ k := Nat.div_lt_of_lt_mul (by rw [pow_succ] at ha; omega)
    have hb' : b / 10 < 10 ^ k := Nat.div_lt_of_lt_mul (by rw [pow_succ] at hb; omega)
    have ihd := ih ha' hb'
    have hlen : (padChars k (a / 10)).length = (padChars k (b / 10)).length := by
      rw [padChars_length, padChars_length]
    constructor
    · rw [padChars, padChars, charListLt_append hlen]
      simp only [Bool.or_eq_true, Bool.and_eq_true, beq_iff_eq]
      constructor
      · rintro (hq | ⟨hq, hr⟩)
        · have : a / 10 < b / 10 := (ihd.1).mp hq
          omega
        · have hq' : a / 10 = b / 10 := (ihd.2).mp hq
          have hr' : a % 10 < b % 10 := by
            simp only [charListLt] at hr
            split at hr
            · rename_i hc
              exact (digitChar_lt _ (Nat.mod_lt _ (by omega)) _ (Nat.mod_lt _ (by omega))).mp hc
            · split at hr
              · simp at hr
              · simp [charListLt] at hr
          omega
      · intro hab
        rcases Nat.lt_or_ge (a / 10) (b / 10) with hq | hq
        · exact Or.inl ((ihd.1).mpr hq)
        · have hq' : a / 10 = b / 10 := by omega
          have hr' : a % 10 < b % 10 := by omega
          refine Or.inr ⟨(ihd.2).mpr hq', ?_⟩
          simp only [charListLt]
          rw [if_pos ((digitChar_lt _ (Nat.mod_lt _ (by omega)) _ (Nat.mod_lt _ (by omega))).mpr hr')]
    · rw [padChars, padChars]
      constructor
      · intro h
        have h1 : padChars k (a / 10) = padChars k (b / 10) ∧
            digitChar (a % 10) = digitChar (b % 10) := by
          have := List.append_inj h (by rw [padChars_length, padChars_length])
          simpa using this
        have hq : a / 10 = b / 10 := (ihd.2).mp h1.1
        have hr : a % 10 = b % 10 :=
          digitChar_inj _ (Nat.mod_lt _ (by omega)) _ (Nat.mod_lt _ (by omega)) h1.2
        omega
      · intro h; subst h; rfl

/-- Chronological (year, month, day) lexicographic order on dates. -/
def dateBefore (x y : SDate) : Prop :=
  x.y < y.y ∨ (x.y = y.y ∧ (x.m < y.m ∨ (x.m = y.m ∧ x.d < y.d)))

instance (x y : SDate) : Decidable (dateBefore x y) := by
  unfold dateBefore
  exact inferInstance

/-- For dates whose fields fit the "%Y-%m-%d" field widths, Python's
lexicographic comparison of the formatted strings agrees with chronological
order. -/
theorem strLt_formatYMD {x y : SDate} (hxy : x.y < 10000) (hyy : y.y < 10000)
    (hxm : x.m < 100) (hym : y.m < 100) (hxd : x.d < 100) (hyd : y.d < 100) :
    strLt (formatYMD x) (formatYMD y) = true ↔ dateBefore x y := by
  have py := padChars_lt (k := 4) (by simpa using hxy) (by simpa using hyy)
  have pm := padChars_lt (k := 2) (by simpa using hxm) (by simpa using hym)
  have pd := padChars_lt (k := 2) (by simpa using hxd) (by simpa using hyd)
  have hylen : (padChars 4 x.y).length = (padChars 4 y.y).length := by
    rw [padChars_length, padChars_length]
  have hmlen : ('-' :: padChars 2 x.m).length = ('-' :: padChars 2 y.m).length := by
    simp [padChars_length]
  unfold strLt formatYMD dateBefore
  simp only [String.data]
  rw [show ('-' :: (padChars 2 x.m ++ '-' :: padChars 2 x.d)) =
        (('-' :: padChars 2 x.m) ++ '-' :: padChars 2 x.d) by simp,
      show ('-' :: (padChars 2 y.m ++ '-' :: padChars 2 y.d)) =
        (('-' :: padChars 2 y.m) ++ '-' :: padChars 2 y.d) by simp]
  rw [charListLt_append hylen, charListLt_append hmlen]
  have hdash : charListLt ('-' :: padChars 2 x.m) ('-' :: padChars 2 y.m) =
      charListLt (padChars 2 x.m) (padChars 2 y.m) := by
    simp [charListLt]
  have hdash2 : charListLt ('-' :: padChars 2 x.d) ('-' :: padChars 2 y.d) =
      charListLt (padChars 2 x.d) (padChars 2 y.d) := by
    simp [charListLt]
  rw [hdash, hdash2]
  simp only [Bool.or_eq_true, Bool.and_eq_true, beq_iff_eq, List.cons.injEq, true_and]
  rw [py.1, py.2, pm.1, pm.2, pd.1]

/-! ## SQLite values and pandas dataframes -/

/-- A dynamically typed value: SQL NULL / Python None, a number, a text
value, or a raw datetime object (e.g. an entry of a DatetimeIndex). -/
inductive Cell where
  | null
  | num (n : Int)
  | str (s : String)
  | dt (d : SDate)
deriving DecidableEq, Repr

/-- A pandas dataframe, column-major: an index (its name and values, one per
row) and labelled columns. -/
structure DF where
  indexName : Option String
  indexVals : List Cell
  cols : List (String × List Cell)
deriving DecidableEq, Repr

def DF.colNames (df : DF) : List String := df.cols.map Prod.fst

def DF.hasCol (df : DF) (n : String) : Bool := df.colNames.contains n

/-- First association for a label (`df[n]` reads the first matching
column). -/
def colLookup (n : String) : List (String × List Cell) → Option (List Cell)
  | [] => none
  | (k, v) :: rest => if k = n then some v else colLookup n rest

def DF.getCol (df : DF) (n : String) : Option (List Cell) := colLookup n df.cols

def DF.nrows (df : DF) : Nat := df.indexVals.length

/-- `df[n] = vs`: overwrite the column when the label exists, else append
it. -/
def DF.setCol (df : DF) (n : String) (vs : List Cell) : DF :=
  if df.hasCol n then
    { df with cols := df.cols.map fun p => if p.1 = n then (n, vs) else p }
  else { df with cols := df.cols ++ [(n, vs)] }

/-- `df.reset_index()`: the index becomes a column named by its name
("index" when unnamed) and the dataframe gets a fresh unnamed index. -/
def DF.reset_index (df : DF) : DF :=
  { indexName := none, indexVals := df.indexVals,
    cols := (df.indexName.getD "index", df.indexVals) :: df.cols }

/-- Keep the entries of a list selected by a row mask (pandas boolean-mask
row filtering, as `dropna` performs it). -/
def applyMask {α : Type} : List Bool → List α → List α
  | b :: bs, c :: cs => if b then c :: applyMask bs cs else applyMask bs cs
  | _, _ => []

/-! ## process_stock_data (src/stock.py lines 159-192) -/

/-- The `column_mapping` dict of `process_stock_data`. -/
def column_mapping : List (String × String) :=
  [("日期", "date"), ("trade_date", "date"), ("index", "date"),
   ("开盘", "open"), ("收盘", "close"), ("最高", "high"), ("最低", "low"),
   ("成交量", "volume"), ("成交额", "amount"), ("振幅", "amplitude"),
   ("涨跌幅", "change_percent"), ("涨跌额", "change"), ("换手率", "turnover")]

def renameCol (n : String) : String :=
  match column_mapping.lookup n with
  | some v => v
  | none => n

/-- Lines 161-173: reset the index when no "date" column exists (so the
index becomes a column the mapping can catch), then rename columns through
`column_mapping`. -/
def stage_rename (df : DF) : DF :=
  let df1 := if df.hasCol "date" then df else df.reset_index
  { df1 with cols := df1.cols.map fun p => (renameCol p.1, p.2) }

/-- One cell under `pd.to_datetime(_, errors="coerce")`: an already-parsed
datetime passes through, an ISO "%Y-%m-%d" string parses, anything else
coerces to NaT (the vendor parser accepts further string formats; the
dt constructor stands for inputs it has already understood). -/
def parseCell : Cell → Option SDate
  | .dt d => some d
  | .str s => parseYMD s
  | _ => none

/-- Lines 176-179: parse the "date" column, drop the rows whose date failed
to parse, and render the surviving dates as "%Y-%m-%d" strings. -/
def stage_date (df : DF) : DF :=
  if df.hasCol "date" then
    let dcol := (df.getCol "date").getD []
    let mask := (dcol.map parseCell).map Option.isSome
    let newDates := (dcol.filterMap parseCell).map fun d => Cell.str (formatYMD d)
    { indexName := df.indexName,
      indexVals := applyMask mask df.indexVals,
      cols := df.cols.map fun p =>
        if p.1 = "date" then (p.1, newDates) else (p.1, applyMask mask p.2) }
  else df

def required_columns : List String := ["date", "open", "close", "high", "low", "volume"]

/-- `process_stock_data(df, symbol, period, adjust)`. -/
def process_stock_data (df : DF) (symbol period adjust : String) : DF :=
  let df2 := stage_date (stage_rename df)
  let n := df2.nrows
  let df3 := df2.setCol "symbol" (List.replicate n (Cell.str symbol))
  let df4 := df3.setCol "period" (List.replicate n (Cell.str period))
  let df5 := df4.setCol "adjust"
    (List.replicate n (Cell.str (if adjust = "" then "None" else adjust)))
  required_columns.foldl
    (fun d c => if d.hasCol c then d else d.setCol c (List.replicate d.nrows Cell.null)) df5

/-! ## The stock_zh_a_hist table (init_db, lines 81-101) and
save_stocks_to_db (lines 232-286) -/

/-- One row of `stock_zh_a_hist`, with the columns the INSERT of
save_stocks_to_db provides (id and create_time are generated and never
consulted; `opn` stands for the column named `open`). -/
structure HistRow where
  symbol : Cell
  date : Cell
  opn : Cell
  close : Cell
  high : Cell
  low : Cell
  volume : Cell
  amount : Cell
  amplitude : Cell
  change_percent : Cell
  change : Cell
  turnover : Cell
  period : Cell
  adjust : Cell
deriving DecidableEq, Repr

/-- `row.get(label)` on one dataframe row: the cell when the column exists
(NULL models a missing value), else the given default (`None` for the plain
`row.get(c)` calls, "daily"/"qfq" for period/adjust). -/
def rowGet (df : DF) (c : String) (i : Nat) (dflt : Cell) : Cell :=
  match df.getCol c with
  | some vs => vs.getD i Cell.null
  | none => dflt

/-- The `data_to_insert` tuples of save_stocks_to_db (lines 250-262). -/
def dataToInsert (df : DF) : List HistRow :=
  (List.range df.nrows).map fun i =>
    { symbol := rowGet df "symbol" i Cell.null
      date := rowGet df "date" i Cell.null
      opn := rowGet df "open" i Cell.null
      close := rowGet df "close" i Cell.null
      high := rowGet df "high" i Cell.null
      low := rowGet df "low" i Cell.null
      volume := rowGet df "volume" i Cell.null
      amount := rowGet df "amount" i Cell.null
      amplitude := rowGet df "amplitude" i Cell.null
      change_percent := rowGet df "change_percent" i Cell.null
      change := rowGet df "change" i Cell.null
      turnover := rowGet df "turnover" i Cell.null
      period := rowGet df "period" i (Cell.str "daily")
      adjust := rowGet df "adjust" i (Cell.str "qfq") }

/-- Whether an existing row `a` makes inserting `b` violate
`UNIQUE(symbol, date, period, adjust)`: all four pairs equal and none NULL
(SQLite regards NULLs in a unique index as distinct from everything). -/
def uniqueConflict (a b : HistRow) : Bool :=
  a.symbol == b.symbol && !(a.symbol == Cell.null) &&
  (a.date == b.date && !(a.date == Cell.null)) &&
  (a.period == b.period && !(a.period == Cell.null)) &&
  (a.adjust == b.adjust && !(a.adjust == Cell.null))

/-- `INSERT OR IGNORE INTO stock_zh_a_hist ...` of one tuple: a row whose
NOT NULL columns (symbol, date) are NULL, or whose key collides with a
stored row, is skipped; otherwise it is appended. -/
def insertOrIgnore (t : List HistRow) (r : HistRow) : List HistRow :=
  if r.symbol == Cell.null || r.date == Cell.null then t
  else if t.any fun q => uniqueConflict q r then t
  else t ++ [r]

/-- save_stocks_to_db: the table state after inserting every row of every
non-empty dataframe of the list (the function's return value and messages
report counts only and do not affect the table). -/
def save_stocks_to_db (df_list : List DF) (t : List HistRow) : List HistRow :=
  df_list.foldl
    (fun acc df => if df.nrows = 0 then acc else (dataToInsert df).foldl insertOrIgnore acc)
    t

/-- The table init_db creates: empty. -/
def init_db : List HistRow := []

def keyQuad (r : HistRow) : Cell × Cell × Cell × Cell :=
  (r.symbol, r.date, r.period, r.adjust)

/-- At most one row for each (symbol, date, period, adjust) quadruple. -/
def dupFreeKeys : List HistRow → Bool
  | [] => true
  | r :: rs => rs.all (fun q => !(keyQuad q == keyQuad r)) && dupFreeKeys rs

/-! ## update_stock_data (lines 288-314) -/

/-- The adjust value stock.py binds as the SQL parameter:
`adjust if adjust != "None" else ""`. -/
def normAdjust (adjust : String) : String := if adjust = "None" then "" else adjust

def listMaxStr : List String → Option String
  | [] => none
  | h :: tl => some (tl.foldl (fun a d => if strLt a d then d else a) h)

/-- The date values of the rows the WHERE clause of the MAX(date) query
matches (`=` never matches NULL; the pipeline stores dates as TEXT, and SQL
MAX ignores NULLs). -/
def matchDates (t : List HistRow) (symbol period adjustParam : String) : List String :=
  t.filterMap fun r =>
    if r.symbol == Cell.str symbol && r.period == Cell.str period
        && r.adjust == Cell.str adjustParam then
      match r.date with
      | Cell.str d => some d
      | _ => none
    else none

/-- `SELECT MAX(date) FROM stock_zh_a_hist WHERE symbol=? AND period=? AND
adjust=?` (lines 293-296). -/
def maxDateQ (t : List HistRow) (symbol period adjustParam : String) : Option String :=
  listMaxStr (matchDates t symbol period adjustParam)

inductive UpdateResult where
  | uptodate
  | fetch (start_date end_date : String)
  | error
deriving DecidableEq, Repr

/-- update_stock_data with `datetime.now().strftime("%Y-%m-%d")` passed in
as `today`: `.fetch s e` stands for the tail call
`safe_fetch_stock_data(symbol, s, e, period, adjust)`, `.uptodate` for the
early `return None` ("data already current"), `.error` for the ValueError
strptime would raise on an unparseable stored MAX(date). -/
def update_stock_data (t : List HistRow) (symbol period adjust today : String) :
    UpdateResult :=
  match maxDateQ t symbol period (normAdjust adjust) with
  | some last_date =>
    match parseYMD last_date with
    | none => .error
    | some d =>
      let start_date := formatYMD (nextDay d)
      if strLt today start_date then .uptodate else .fetch start_date today
  | none =>
    let start_date := "1990-01-01"
    if strLt today start_date then .uptodate else .fetch start_date today

/-! ## process_symbols (lines 195-199) and fetch_multiple_stocks
(lines 201-230) -/

/-- Python `str.strip()` whitespace (ASCII; `strip` also removes some
further Unicode space characters, which do not occur in stock-code
input). -/
def pyIsSpace (c : Char) : Bool :=
  c = ' ' || c = '\t' || c = '\n' || c = '\r' || c = '\x0b' || c = '\x0c'

/-- `s.strip()`. -/
def pyStrip (l : List Char) : List Char :=
  ((l.dropWhile pyIsSpace).reverse.dropWhile pyIsSpace).reverse

/-- One character under the chained `.replace` calls: fullwidth comma,
semicolon and space become commas. -/
def sepNorm (c : Char) : Char := if c = '，' ∨ c = ';' ∨ c = ' ' then ',' else c

/-- process_symbols. Python's `list(set(...))` returns the distinct tokens
in an unspecified hash order; the model keeps first occurrences (no claim
depends on the order). -/
def process_symbols (symbols_str : String) : List String :=
  let pieces := splitOnChar ',' (symbols_str.data.map sepNorm)
  let toks := pieces.map fun t => String.mk (pyStrip t)
  (toks.filter fun t => t != "").dedup

/-- fetch_multiple_stocks: `fetchResult sym` abstracts what
safe_fetch_stock_data returns for a symbol; the result pairs the collected
dataframe list with the number of safe_fetch_stock_data calls made. -/
def fetch_multiple_stocks (fetchResult : String → Option DF) (symbols_str : String) :
    List DF × Nat :=
  let symbols := process_symbols symbols_str
  if symbols.isEmpty then ([], 0)
  else
    (symbols.foldl
      (fun acc sym =>
        match fetchResult sym with
        | some df => if df.nrows = 0 then acc else acc ++ [df]
        | none => acc)
      [],
    symbols.length)

/-! ## safe_fetch_stock_data (lines 118-157) -/

/-- What one `ak.stock_zh_a_hist` attempt does. -/
inductive FetchOutcome where
  | ok (df : DF)
  | noneDf
  | reqExc
  | otherExc
deriving DecidableEq, Repr

/-- What one call of safe_fetch_stock_data did: how many vendor attempts it
made, which backoff sleeps it performed, and what it returned (`.error`
would be an exception escaping to the caller). -/
structure FetchTrace where
  attempts : Nat
  waits : List Nat
  result : Except Unit (Option DF)
deriving Repr

/-- The retry loop `for attempt in range(max_retries)`, run with `remaining`
iterations left (so the current attempt index is
`maxRetries - remaining`); falling out of the loop returns Python's
implicit None. -/
def safeFetchAux (oracle : Nat → FetchOutcome) (symbol period adjust : String)
    (maxRetries : Nat) : Nat → FetchTrace
  | 0 => ⟨0, [], .ok none⟩
  | remaining + 1 =>
    let attempt := maxRetries - (remaining + 1)
    match oracle attempt with
    | .ok df =>
      if df.nrows = 0 then ⟨1, [], .ok none⟩
      else ⟨1, [], .ok (some (process_stock_data df symbol period adjust))⟩
    | .noneDf => ⟨1, [], .ok none⟩
    | .reqExc =>
      if attempt < maxRetries - 1 then
        let rest := safeFetchAux oracle symbol period adjust maxRetries remaining
        ⟨rest.attempts + 1, 2 ^ (attempt + 1) :: rest.waits, rest.result⟩
      else ⟨1, [], .ok none⟩
    | .otherExc => ⟨1, [], .ok none⟩

/-- `max_retries = max_retries or REQUEST_CONFIG["max_retries"]`: None and 0
are falsy and fall back to the configured 3. -/
def effectiveMaxRetries : Option Nat → Nat
  | none => 3
  | some 0 => 3
  | some (k + 1) => k + 1

/-- safe_fetch_stock_data: the oracle gives each attempt's outcome
(start_date and end_date only parametrize the vendor call, which the oracle
abstracts). -/
def safe_fetch_stock_data (oracle : Nat → FetchOutcome)
    (symbol start_date end_date period adjust : String) (max_retries : Option Nat) :
    FetchTrace :=
  let m := effectiveMaxRetries max_retries
  safeFetchAux oracle symbol period adjust m m

/-! ## query_stocks_data (lines 340-372) -/

/-- SQLite's ordering of storage classes: NULL, then numbers, then text
(datetime objects never reach this table; they are ranked last). -/
def cellRank : Cell → Nat
  | .null => 0
  | .num _ => 1
  | .str _ => 2
  | .dt _ => 3

/-- SQLite's `ORDER BY` comparison of two stored values. -/
def cellLtB (a b : Cell) : Bool :=
  match a, b with
  | .num x, .num y => decide (x < y)
  | .str x, .str y => strLt x y
  | .dt x, .dt y => decide (dateBefore x y)
  | _, _ => decide (cellRank a < cellRank b)

/-- `stored >= param` for a TEXT-bound parameter: NULL compares as no
match, numbers sort below all text. -/
def cellGeStr (c : Cell) (s : String) : Bool :=
  match c with
  | .str d => strLe s d
  | _ => false

/-- `stored <= param` for a TEXT-bound parameter. -/
def cellLeStr (c : Cell) (s : String) : Bool :=
  match c with
  | .str d => strLe d s
  | _ => true

/-- `ORDER BY symbol, date ASC` as a non-strict row comparison. -/
def rowLeB (a b : HistRow) : Bool :=
  if cellLtB a.symbol b.symbol then true
  else if cellLtB b.symbol a.symbol then false
  else !cellLtB b.date a.date

def RowLe (a b : HistRow) : Prop := rowLeB a b = true

instance : DecidableRel RowLe := fun a b =>
  inferInstanceAs (Decidable (rowLeB a b = true))

/-- The WHERE clause of query_stocks_data for one stored row: symbol in the
parsed list, period and adjust equal to the bound parameters, and the
optional date bounds (`if start_date:` is Python truthiness, so None and ""
both skip the bound). -/
def queryFilter (symbols : List String) (period adjustParam : String)
    (start_date end_date : Option String) (r : HistRow) : Bool :=
  (symbols.any fun s => r.symbol == Cell.str s) && r.period == Cell.str period
    && r.adjust == Cell.str adjustParam
    && (match start_date with
        | some sd => if sd = "" then true else cellGeStr r.date sd
        | none => true)
    && (match end_date with
        | some ed => if ed = "" then true else cellLeStr r.date ed
        | none => true)

/-- query_stocks_data: the dataframe `pd.read_sql` returns, as a row list
(`driverFail` models the except-branch, where any database error yields an
empty dataframe; the function itself raises nothing). -/
def query_stocks_data (symbols_str : String) (start_date end_date : Option String)
    (period adjust : String) (t : List HistRow) (driverFail : Bool) : List HistRow :=
  let symbols := process_symbols symbols_str
  if symbols.isEmpty then []
  else if driverFail then []
  else
    List.insertionSort RowLe
      (t.filter (queryFilter symbols period (normAdjust adjust) start_date end_date))

/-! ## The US dashboard's DataManager (src/US_stock.py): init_database
(lines 37-72) and save_stock_data (lines 121-160) -/

/-- One row of the `stocks` table (id is generated and never consulted;
`opn` stands for the column named `open`). -/
structure USRow where
  symbol : Cell
  date : Cell
  opn : Cell
  high : Cell
  low : Cell
  close : Cell
  volume : Cell
  dividends : Cell
  stock_splits : Cell
deriving DecidableEq, Repr

/-- The table init_database creates: empty. -/
def init_database : List USRow := []

/-- ASCII lower-casing, as SQLite's case-insensitive identifier
resolution performs it. -/
def asciiLower (c : Char) : Char :=
  if 'A' ≤ c && c ≤ 'Z' then Char.ofNat (c.toNat + 32) else c

/-- SQLite resolves column names case-insensitively. -/
def sqlNameEq (a b : String) : Bool :=
  a.data.map asciiLower == b.data.map asciiLower

/-- The columns of the `stocks` table. -/
def stocksTableCols : List String :=
  ["id", "symbol", "date", "open", "high", "low", "close", "volume",
   "dividends", "stock_splits"]

/-- The `rename_map` of save_stock_data. -/
def yf_rename_map : List (String × String) :=
  [("Open", "open"), ("High", "high"), ("Low", "low"), ("Close", "close"),
   ("Volume", "volume"), ("Dividends", "dividends"), ("Stock Splits", "stock_splits")]

def usRename (n : String) : String :=
  match yf_rename_map.lookup n with
  | some v => v
  | none => n

/-- The dataframe save_stock_data passes to `to_sql` (lines 127-144):
reset_index, derive `date` from the `Date`/`Datetime` column, add `symbol`,
rename the price columns — note the original `Date` and `Symbol` columns
remain in the frame. -/
def prepared_data (symbol : String) (data : DF) : DF :=
  let d1 := data.reset_index
  let d2 :=
    if d1.hasCol "Date" then
      d1.setCol "date" ((d1.getCol "Date").getD [])
    else if d1.hasCol "Datetime" then
      d1.setCol "date" ((d1.getCol "Datetime").getD [])
    else d1
  let d3 := d2.setCol "symbol" (List.replicate d2.nrows (Cell.str symbol))
  { d3 with cols := d3.cols.map fun p => (usRename p.1, p.2) }

/-- The `data_to_save` frame the code builds on lines 147-148 and then
never uses (the `to_sql` call on line 151 writes `data` instead): the
prepared frame restricted to the database's columns. -/
def data_to_save (symbol : String) (data : DF) : DF :=
  let d := prepared_data symbol data
  { d with
    cols := ["symbol", "date", "open", "high", "low", "close", "volume",
             "dividends", "stock_splits"].filterMap
      fun c => (d.getCol c).map fun vs => (c, vs) }

/-- The value an INSERT binds for a table column: SQLite matches the
frame's column names case-insensitively and, of several matches, the first
occurrence wins; an unmentioned column defaults (to NULL here). -/
def frameVal (df : DF) (col : String) (i : Nat) : Cell :=
  match df.cols.find? fun p => sqlNameEq p.1 col with
  | some p => p.2.getD i Cell.null
  | none => Cell.null

def usRowOfFrame (df : DF) (i : Nat) : USRow :=
  { symbol := frameVal df "symbol" i
    date := frameVal df "date" i
    opn := frameVal df "open" i
    high := frameVal df "high" i
    low := frameVal df "low" i
    close := frameVal df "close" i
    volume := frameVal df "volume" i
    dividends := frameVal df "dividends" i
    stock_splits := frameVal df "stock_splits" i }

/-- Violation of the table's `UNIQUE(symbol, date)` (NULLs distinct). -/
def usConflict (a b : USRow) : Bool :=
  a.symbol == b.symbol && !(a.symbol == Cell.null) &&
  (a.date == b.date && !(a.date == Cell.null))

/-- A plain INSERT (no OR IGNORE) of the rows in order: NOT NULL or UNIQUE
violations raise, and the surrounding transaction then writes nothing. -/
def usInsertAll (table : List USRow) : List USRow → Option (List USRow)
  | [] => some table
  | r :: rs =>
    if r.symbol == Cell.null || r.date == Cell.null then none
    else if table.any fun q => usConflict q r then none
    else usInsertAll (table ++ [r]) rs

/-- `df.to_sql("stocks", conn, if_exists="append", ...)`: every frame
column must resolve to some table column (else sqlite3 raises
OperationalError), then the rows are inserted; `.error` is a raised
exception, after which the table is unchanged. -/
def to_sql_append (df : DF) (table : List USRow) : Except Unit (List USRow) :=
  if df.colNames.all (fun c => stocksTableCols.any fun tc => sqlNameEq c tc) then
    match usInsertAll table ((List.range df.nrows).map fun i => usRowOfFrame df i) with
    | some t => .ok t
    | none => .error ()
  else .error ()

/-- DataManager.save_stock_data: returns True after a successful write; any
exception is caught and False returned, the table unchanged. -/
def save_stock_data (symbol : String) (data : DF) (table : List USRow) :
    Bool × List USRow :=
  match to_sql_append (prepared_data symbol data) table with
  | .ok t => (true, t)
  | .error _ => (false, table)

/-! ## Order lemmas for the SQLite value and row comparisons -/

theorem cellLtB_irrefl (a : Cell) : cellLtB a a = false := by
  cases a <;> simp [cellLtB, strLt_irrefl, dateBefore]

theorem cellLtB_trans {a b c : Cell} (h1 : cellLtB a b = true)
    (h2 : cellLtB b c = true) : cellLtB a c = true := by
  cases a <;> cases b <;> cases c <;>
      simp only [cellLtB, cellRank, decide_eq_true_eq] at h1 h2 ⊢ <;>
    first
      | rfl
      | omega
      | exact strLt_trans h1 h2
      | (simp only [dateBefore] at h1 h2 ⊢; omega)

theorem cellLtB_asymm {a b : Cell} (h : cellLtB a b = true) : cellLtB b a = false := by
  cases hv : cellLtB b a
  · rfl
  · have := cellLtB_trans h hv
    rw [cellLtB_irrefl] at this
    simp at this

theorem cellLtB_connex {a b : Cell} (h1 : cellLtB a b = false)
    (h2 : cellLtB b a = false) : a = b := by
  cases a <;> cases b <;>
      simp only [cellLtB, cellRank, decide_eq_false_iff_not] at h1 h2 <;>
    first
      | rfl
      | omega
      | exact congrArg Cell.str (strLt_connex h1 h2)
      | exact congrArg Cell.num (by omega)
      | (rename_i x y
         obtain ⟨x1, x2, x3⟩ := x
         obtain ⟨y1, y2, y3⟩ := y
         simp only [dateBefore] at h1 h2
         simp only [Cell.dt.injEq, SDate.mk.injEq]
         omega)

theorem rowLeB_total (a b : HistRow) : rowLeB a b = true ∨ rowLeB b a = true := by
  unfold rowLeB
  by_cases sab : cellLtB a.symbol b.symbol = true
  · left; rw [if_pos sab]
  · by_cases sba : cellLtB b.symbol a.symbol = true
    · right; rw [if_pos sba]
    · rw [if_neg sab, if_neg sba, if_neg sba, if_neg sab]
      cases hd : cellLtB b.date a.date
      · left; rfl
      · right
        rw [cellLtB_asymm hd]
        rfl

theorem rowLeB_trans {a b c : HistRow} (h1 : rowLeB a b = true)
    (h2 : rowLeB b c = true) : rowLeB a c = true := by
  unfold rowLeB at h1 h2 ⊢
  by_cases sab : cellLtB a.symbol b.symbol = true
  · by_cases sbc : cellLtB b.symbol c.symbol = true
    · rw [if_pos (cellLtB_trans sab sbc)]
    · by_cases scb : cellLtB c.symbol b.symbol = true
      · rw [if_neg sbc, if_pos scb] at h2
        simp at h2
      · have hbc : b.symbol = c.symbol :=
          cellLtB_connex (Bool.eq_false_iff.mpr sbc) (Bool.eq_false_iff.mpr scb)
        rw [← hbc, if_pos sab]
  · by_cases sba : cellLtB b.symbol a.symbol = true
    · rw [if_neg sab, if_pos sba] at h1
      simp at h1
    · have hab : a.symbol = b.symbol :=
        cellLtB_connex (Bool.eq_false_iff.mpr sab) (Bool.eq_false_iff.mpr sba)
      rw [if_neg sab, if_neg sba] at h1
      simp only [Bool.not_eq_true'] at h1
      by_cases sbc : cellLtB b.symbol c.symbol = true
      · rw [hab, if_pos sbc]
      · by_cases scb : cellLtB c.symbol b.symbol = true
        · rw [if_neg sbc, if_pos scb] at h2
          simp at h2
        · have hbc : b.symbol = c.symbol :=
            cellLtB_connex (Bool.eq_false_iff.mpr sbc) (Bool.eq_false_iff.mpr scb)
          rw [if_neg sbc, if_neg scb] at h2
          simp only [Bool.not_eq_true'] at h2
          have hac : a.symbol = c.symbol := hab.trans hbc
          rw [hac, cellLtB_irrefl]
          simp only [Bool.false_eq_true, if_false, Bool.not_eq_true']
          cases hca : cellLtB c.date a.date
          · rfl
          · exfalso
            cases hbcd : cellLtB b.date c.date
            · have hbceq : b.date = c.date := cellLtB_connex hbcd h2
              rw [← hbceq] at hca
              rw [h1] at hca
              simp at hca
            · have hba := cellLtB_trans hbcd hca
              rw [h1] at hba
              simp at hba

instance : IsTotal HistRow RowLe := ⟨rowLeB_total⟩

instance : IsTrans HistRow RowLe := ⟨fun _ _ _ h1 h2 => rowLeB_trans h1 h2⟩

/-! ## The maximum of a string list (SQL MAX on TEXT) -/

theorem foldlMax_spec (tl : List String) (a : String) :
    (tl.foldl (fun x d => if strLt x d then d else x) a = a ∨
      tl.foldl (fun x d => if strLt x d then d else x) a ∈ tl)
    ∧ strLt (tl.foldl (fun x d => if strLt x d then d else x) a) a = false
    ∧ ∀ e ∈ tl, strLt (tl.foldl (fun x d => if strLt x d then d else x) a) e = false := by
  induction tl generalizing a with
  | nil => simp [strLt_irrefl]
  | cons d tl ih =>
    simp only [List.foldl_cons]
    by_cases had : strLt a d = true
    · rw [if_pos had]
      obtain ⟨hmem, hge, hall⟩ := ih d
      refine ⟨?_, ?_, ?_⟩
      · rcases hmem with h | h
        · right; exact List.mem_cons.mpr (Or.inl h)
        · right; exact List.mem_cons.mpr (Or.inr h)
      · cases hfa : strLt (tl.foldl (fun x e => if strLt x e then e else x) d) a
        · rfl
        · have h2 := strLt_trans hfa had
          rw [h2] at hge
          simp at hge
      · intro e he
        rcases List.mem_cons.mp he with rfl | he'
        · exact hge
        · exact hall e he'
    · rw [if_neg had]
      obtain ⟨hmem, hge, hall⟩ := ih a
      have hadf : strLt a d = false := Bool.eq_false_iff.mpr had
      refine ⟨?_, hge, ?_⟩
      · rcases hmem with h | h
        · left; exact h
        · right; exact List.mem_cons.mpr (Or.inr h)
      · intro e he
        rcases List.mem_cons.mp he with rfl | he'
        · cases hfd : strLt (tl.foldl (fun x e => if strLt x e then e else x) a) e
          · rfl
          · exfalso
            cases hda : strLt e a
            · have hde : e = a := strLt_connex hda hadf
              rw [hde] at hfd
              rw [hfd] at hge
              simp at hge
            · have h2 := strLt_trans hfd hda
              rw [h2] at hge
              simp at hge
        · exact hall e he'

theorem listMaxStr_none {l : List String} : listMaxStr l = none ↔ l = [] := by
  cases l <;> simp [listMaxStr]

theorem listMaxStr_spec {l : List String} {d : String} (h : listMaxStr l = some d) :
    d ∈ l ∧ ∀ e ∈ l, strLt d e = false := by
  cases l with
  | nil => simp [listMaxStr] at h
  | cons x tl =>
    simp only [listMaxStr, Option.some.injEq] at h
    obtain ⟨hmem, hge, hall⟩ := foldlMax_spec tl x
    subst h
    constructor
    · rcases hmem with h | h
      · rw [h]; exact List.mem_cons_self _ _
      · exact List.mem_cons_of_mem _ h
    · intro e he
      rcases List.mem_cons.mp he with rfl | he'
      · exact hge
      · exact hall e he'

/-! ## Lemmas about INSERT OR IGNORE and save_stocks_to_db -/

/-- A row the INSERT OR IGNORE necessarily skips over table `T`: a NOT NULL
violation, or a key already present. -/
def covered (T : List HistRow) (r : HistRow) : Prop :=
  r.symbol = Cell.null ∨ r.date = Cell.null ∨ ∃ q ∈ T, uniqueConflict q r = true

theorem insertOrIgnore_covered {T : List HistRow} {r : HistRow} (h : covered T r) :
    insertOrIgnore T r = T := by
  unfold insertOrIgnore
  rcases h with h | h | ⟨q, hq, hc⟩
  · rw [if_pos]
    simp [h]
  · rw [if_pos]
    simp [h]
  · by_cases hnull : (r.symbol == Cell.null || r.date == Cell.null) = true
    · rw [if_pos hnull]
    · rw [if_neg hnull, if_pos]
      exact List.any_eq_true.mpr ⟨q, hq, hc⟩

theorem subset_insertOrIgnore (T : List HistRow) (r : HistRow) :
    T ⊆ insertOrIgnore T r := by
  unfold insertOrIgnore
  split
  · exact fun x hx => hx
  · split
    · exact fun x hx => hx
    · exact fun x hx => List.mem_append_left _ hx

theorem covered_mono {T T' : List HistRow} {r : HistRow} (h : covered T r)
    (hsub : T ⊆ T') : covered T' r := by
  rcases h with h | h | ⟨q, hq, hc⟩
  · exact Or.inl h
  · exact Or.inr (Or.inl h)
  · exact Or.inr (Or.inr ⟨q, hsub hq, hc⟩)

theorem uniqueConflict_self {r : HistRow} (hs : r.symbol ≠ Cell.null)
    (hd : r.date ≠ Cell.null) (hp : r.period ≠ Cell.null)
    (ha : r.adjust ≠ Cell.null) : uniqueConflict r r = true := by
  unfold uniqueConflict
  simp [hs, hd, hp, ha]

theorem insertOrIgnore_post {T : List HistRow} {r : HistRow}
    (hp : r.period ≠ Cell.null) (ha : r.adjust ≠ Cell.null) :
    covered (insertOrIgnore T r) r := by
  by_cases hs : r.symbol = Cell.null
  · exact Or.inl hs
  · by_cases hd : r.date = Cell.null
    · exact Or.inr (Or.inl hd)
    · unfold insertOrIgnore
      rw [if_neg (by simp [hs, hd])]
      by_cases hc : (T.any fun q => uniqueConflict q r) = true
      · rw [if_pos hc]
        obtain ⟨q, hq, hqc⟩ := List.any_eq_true.mp hc
        exact Or.inr (Or.inr ⟨q, hq, hqc⟩)
      · rw [if_neg hc]
        exact Or.inr (Or.inr ⟨r, List.mem_append_right _ (List.mem_singleton_self _),
          uniqueConflict_self hs hd hp ha⟩)

theorem subset_foldl_insertOrIgnore (rs : List HistRow) (T : List HistRow) :
    T ⊆ rs.foldl insertOrIgnore T := by
  induction rs generalizing T with
  | nil => exact fun x hx => hx
  | cons r rs ih =>
    intro x hx
    exact ih (insertOrIgnore T r) (subset_insertOrIgnore T r hx)

theorem foldl_insertOrIgnore_post {rs : List HistRow} {T : List HistRow}
    (h : ∀ r ∈ rs, r.period ≠ Cell.null ∧ r.adjust ≠ Cell.null) :
    ∀ r ∈ rs, covered (rs.foldl insertOrIgnore T) r := by
  induction rs generalizing T with
  | nil => intro r hr; simp at hr
  | cons x rs ih =>
    intro r hr
    rcases List.mem_cons.mp hr with rfl | hr'
    · have ⟨hp, ha⟩ := h r (List.mem_cons_self _ _)
      simp only [List.foldl_cons]
      exact covered_mono (insertOrIgnore_post hp ha)
        (subset_foldl_insertOrIgnore rs (insertOrIgnore T r))
    · simp only [List.foldl_cons]
      exact ih (fun q hq => h q (List.mem_cons_of_mem _ hq)) r hr'

theorem foldl_insertOrIgnore_noop {rs : List HistRow} {T : List HistRow}
    (h : ∀ r ∈ rs, covered T r) : rs.foldl insertOrIgnore T = T := by
  induction rs with
  | nil => rfl
  | cons x rs ih =>
    simp only [List.foldl_cons]
    rw [insertOrIgnore_covered (h x (List.mem_cons_self _ _))]
    exact ih fun r hr => h r (List.mem_cons_of_mem _ hr)

theorem subset_save_stocks_to_db (dfs : List DF) (T : List HistRow) :
    T ⊆ save_stocks_to_db dfs T := by
  induction dfs generalizing T with
  | nil => exact fun x hx => hx
  | cons df dfs ih =>
    intro x hx
    unfold save_stocks_to_db
    simp only [List.foldl_cons]
    by_cases hn : df.nrows = 0
    · rw [if_pos hn]
      exact ih T hx
    · rw [if_neg hn]
      exact ih _ (subset_foldl_insertOrIgnore (dataToInsert df) T hx)

theorem save_stocks_to_db_post {dfs : List DF} {T : List HistRow}
    (h : ∀ df ∈ dfs, ∀ r ∈ dataToInsert df, r.period ≠ Cell.null ∧ r.adjust ≠ Cell.null) :
    ∀ df ∈ dfs, ∀ r ∈ dataToInsert df, covered (save_stocks_to_db dfs T) r := by
  induction dfs generalizing T with
  | nil => intro df hdf; simp at hdf
  | cons x dfs ih =>
    intro df hdf r hr
    rcases List.mem_cons.mp hdf with rfl | hdf'
    · unfold save_stocks_to_db
      simp only [List.foldl_cons]
      by_cases hn : df.nrows = 0
      · unfold dataToInsert at hr
        rw [hn] at hr
        simp at hr
      · rw [if_neg hn]
        have hcov := foldl_insertOrIgnore_post (T := T)
          (h df (List.mem_cons_self _ _)) r hr
        exact covered_mono hcov (subset_save_stocks_to_db dfs _)
    · unfold save_stocks_to_db
      simp only [List.foldl_cons]
      by_cases hn : x.nrows = 0
      · rw [if_pos hn]
        exact ih (fun q hq => h q (List.mem_cons_of_mem _ hq)) df hdf' r hr
      · rw [if_neg hn]
        exact ih (fun q hq => h q (List.mem_cons_of_mem _ hq)) df hdf' r hr

theorem save_stocks_to_db_noop {dfs : List DF} {T : List HistRow}
    (h : ∀ df ∈ dfs, ∀ r ∈ dataToInsert df, covered T r) :
    save_stocks_to_db dfs T = T := by
  induction dfs with
  | nil => rfl
  | cons x dfs ih =>
    unfold save_stocks_to_db
    simp only [List.foldl_cons]
    by_cases hn : x.nrows = 0
    · rw [if_pos hn]
      exact ih fun df hdf => h df (List.mem_cons_of_mem _ hdf)
    · rw [if_neg hn]
      rw [foldl_insertOrIgnore_noop (h x (List.mem_cons_self _ _))]
      exact ih fun df hdf => h df (List.mem_cons_of_mem _ hdf)

/-! ## Concrete fixtures -/

/-- A vendor dataframe whose dates form the index (named 日期): the schema
the reset_index fallback handles. -/
def akDF1 : DF :=
  { indexName := some "日期"
    indexVals := [Cell.dt ⟨2024, 1, 2⟩]
    cols := [("开盘", [Cell.num 10]), ("收盘", [Cell.num 11]), ("最高", [Cell.num 12]),
             ("最低", [Cell.num 9]), ("成交量", [Cell.num 1000]),
             ("成交额", [Cell.num 9999])] }

/-- A vendor dataframe shaped like a modern akshare response: 日期 is a
plain column and the index an unnamed RangeIndex. -/
def akDFdup : DF :=
  { indexName := none
    indexVals := [Cell.num 0]
    cols := [("日期", [Cell.str "2024-01-02"]), ("开盘", [Cell.num 10]),
             ("收盘", [Cell.num 11]), ("最高", [Cell.num 12]), ("最低", [Cell.num 9]),
             ("成交量", [Cell.num 1000])] }

/-- A dataframe carrying an explicit None in its period column. -/
def dfNullPeriod : DF :=
  { indexName := none
    indexVals := [Cell.num 0]
    cols := [("symbol", [Cell.str "600000"]), ("date", [Cell.str "2024-01-02"]),
             ("period", [Cell.null]), ("adjust", [Cell.str "qfq"])] }

/-- A dataframe shaped like a yfinance `history()` result after
fetch_stock_data added its Symbol column: DatetimeIndex named Date. -/
def yfDF : DF :=
  { indexName := some "Date"
    indexVals := [Cell.dt ⟨2024, 1, 2⟩]
    cols := [("Open", [Cell.num 100]), ("High", [Cell.num 101]), ("Low", [Cell.num 99]),
             ("Close", [Cell.num 100]), ("Volume", [Cell.num 50000]),
             ("Dividends", [Cell.num 0]), ("Stock Splits", [Cell.num 0]),
             ("Symbol", [Cell.str "AAPL"])] }

/-! ## Dataframe column bookkeeping lemmas -/

theorem getD_replicate {α : Type} {x d : α} : ∀ {n i : Nat}, i < n →
    (List.replicate n x).getD i d = x := by
  intro n
  induction n with
  | zero => intro i h; omega
  | succ n ih =>
    intro i h
    cases i with
    | zero => rfl
    | succ i => exact ih (by omega)

theorem hasCol_iff_mem {df : DF} {n : String} : df.hasCol n = true ↔ n ∈ df.colNames := by
  unfold DF.hasCol
  simp

theorem lookup_replace_self {l : List (String × List Cell)} {n : String} {vs : List Cell}
    (h : n ∈ l.map Prod.fst) :
    colLookup n (l.map fun p => if p.1 = n then (n, vs) else p) = some vs := by
  induction l with
  | nil => simp at h
  | cons p l ih =>
    obtain ⟨k, v⟩ := p
    by_cases hp : k = n
    · subst hp
      simp only [List.map_cons]
      simp [colLookup]
    · simp only [List.map_cons]
      rw [if_neg (by simpa using hp)]
      simp only [colLookup]
      rw [if_neg hp]
      refine ih ?_
      simp only [List.map_cons, List.mem_cons] at h
      rcases h with h' | h'
      · exact absurd h'.symm hp
      · exact h'

theorem lookup_replace_other {l : List (String × List Cell)} {n m : String} {vs : List Cell}
    (h : m ≠ n) :
    colLookup m (l.map fun p => if p.1 = n then (n, vs) else p) = colLookup m l := by
  induction l with
  | nil => rfl
  | cons p l ih =>
    obtain ⟨k, v⟩ := p
    by_cases hp : k = n
    · simp only [List.map_cons]
      rw [if_pos (by simpa using hp)]
      simp only [colLookup]
      rw [if_neg (Ne.symm h), if_neg (by rw [hp]; exact fun he => h he.symm)]
      exact ih
    · simp only [List.map_cons]
      rw [if_neg (by simpa using hp)]
      simp only [colLookup]
      by_cases hm : k = m
      · rw [if_pos hm, if_pos hm]
      · rw [if_neg hm, if_neg hm]
        exact ih

theorem lookup_append_right {l : List (String × List Cell)} {n : String} {vs : List Cell}
    (h : ¬n ∈ l.map Prod.fst) :
    colLookup n (l ++ [(n, vs)]) = some vs := by
  induction l with
  | nil => simp [colLookup]
  | cons p l ih =>
    obtain ⟨k, v⟩ := p
    simp only [List.map_cons, List.mem_cons, not_or] at h
    simp only [List.cons_append, colLookup]
    rw [if_neg (by simpa using fun he : k = n => h.1 he.symm)]
    exact ih h.2

theorem lookup_append_left {l : List (String × List Cell)} {n m : String} {vs : List Cell}
    (h : m ≠ n) : colLookup m (l ++ [(n, vs)]) = colLookup m l := by
  induction l with
  | nil => simp [colLookup, Ne.symm h]
  | cons p l ih =>
    obtain ⟨k, v⟩ := p
    simp only [List.cons_append, colLookup]
    by_cases hm : k = m
    · rw [if_pos hm, if_pos hm]
    · rw [if_neg hm, if_neg hm]
      exact ih

theorem DF.nrows_setCol (df : DF) (n : String) (vs : List Cell) :
    (df.setCol n vs).nrows = df.nrows := by
  unfold DF.setCol
  split <;> rfl

theorem DF.getCol_setCol_self (df : DF) (n : String) (vs : List Cell) :
    (df.setCol n vs).getCol n = some vs := by
  unfold DF.setCol
  split
  · rename_i h
    exact lookup_replace_self (hasCol_iff_mem.mp h)
  · rename_i h
    exact lookup_append_right fun hmem => h (hasCol_iff_mem.mpr hmem)

theorem DF.getCol_setCol_other (df : DF) {n m : String} (vs : List Cell) (h : m ≠ n) :
    (df.setCol n vs).getCol m = df.getCol m := by
  unfold DF.setCol
  split
  · exact lookup_replace_other h
  · exact lookup_append_left h

theorem DF.colNames_setCol (df : DF) (n : String) (vs : List Cell) :
    (df.setCol n vs).colNames =
      if df.hasCol n then df.colNames else df.colNames ++ [n] := by
  unfold DF.setCol DF.colNames
  split
  · simp only [List.map_map]
    congr 1
    funext p
    by_cases hp : p.1 = n
    · simp [hp]
    · simp [hp]
  · simp

theorem DF.hasCol_setCol (df : DF) (n : String) (vs : List Cell) (m : String) :
    (df.setCol n vs).hasCol m = (df.hasCol m || m == n) := by
  unfold DF.hasCol
  rw [DF.colNames_setCol]
  split
  · rename_i h
    by_cases hm : m = n
    · subst hm
      have h' : df.colNames.contains m = true := h
      rw [h']
      simp
    · simp [hm]
  · by_cases hm : m = n
    · subst hm
      simp
    · simp [hm]

theorem requiredFoldl_nrows (cs : List String) (df : DF) :
    (cs.foldl (fun d c => if d.hasCol c then d
      else d.setCol c (List.replicate d.nrows Cell.null)) df).nrows = df.nrows := by
  induction cs generalizing df with
  | nil => rfl
  | cons c cs ih =>
    simp only [List.foldl_cons]
    split
    · exact ih df
    · rw [ih, DF.nrows_setCol]

theorem requiredFoldl_getCol_present {cs : List String} {df : DF} {c : String}
    (h : df.hasCol c = true) :
    (cs.foldl (fun d c' => if d.hasCol c' then d
      else d.setCol c' (List.replicate d.nrows Cell.null)) df).getCol c = df.getCol c := by
  induction cs generalizing df with
  | nil => rfl
  | cons c' cs ih =>
    simp only [List.foldl_cons]
    split
    · exact ih h
    · rename_i h'
      have hne : c ≠ c' := fun he => h' (he ▸ h)
      rw [ih (by rw [DF.hasCol_setCol, h]; rfl)]
      exact DF.getCol_setCol_other df _ hne

theorem requiredFoldl_hasCol_mono {cs : List String} {df : DF} {c : String}
    (h : df.hasCol c = true) :
    (cs.foldl (fun d c' => if d.hasCol c' then d
      else d.setCol c' (List.replicate d.nrows Cell.null)) df).hasCol c = true := by
  induction cs generalizing df with
  | nil => exact h
  | cons c' cs ih =>
    simp only [List.foldl_cons]
    split
    · exact ih h
    · exact ih (by rw [DF.hasCol_setCol, h]; rfl)

theorem requiredFoldl_hasCol {cs : List String} {df : DF} {c : String}
    (h : c ∈ cs) :
    (cs.foldl (fun d c' => if d.hasCol c' then d
      else d.setCol c' (List.replicate d.nrows Cell.null)) df).hasCol c = true := by
  induction cs generalizing df with
  | nil => simp at h
  | cons c' cs ih =>
    simp only [List.foldl_cons]
    rcases List.mem_cons.mp h with rfl | h'
    · split
      · rename_i hc
        exact requiredFoldl_hasCol_mono hc
      · exact requiredFoldl_hasCol_mono (by rw [DF.hasCol_setCol]; simp)
    · exact ih h'

theorem requiredFoldl_getCol_absent {cs : List String} {df : DF} {c : String}
    (hmem : c ∈ cs) (habs : df.hasCol c = false) :
    (cs.foldl (fun d c' => if d.hasCol c' then d
      else d.setCol c' (List.replicate d.nrows Cell.null)) df).getCol c =
      some (List.replicate df.nrows Cell.null) := by
  induction cs generalizing df with
  | nil => simp at hmem
  | cons c' cs ih =>
    simp only [List.foldl_cons]
    rcases List.mem_cons.mp hmem with rfl | h'
    · rw [if_neg (by rw [habs]; simp)]
      rw [requiredFoldl_getCol_present (by rw [DF.hasCol_setCol]; simp)]
      exact DF.getCol_setCol_self df c _
    · by_cases hc' : df.hasCol c' = true
      · rw [if_pos hc']
        exact ih h' habs
      · rw [if_neg hc']
        by_cases hcc : c = c'
        · subst hcc
          rw [requiredFoldl_getCol_present (by rw [DF.hasCol_setCol]; simp)]
          exact DF.getCol_setCol_self df c _
        · have habs' : (df.setCol c' (List.replicate df.nrows Cell.null)).hasCol c = false := by
            rw [DF.hasCol_setCol, habs]
            simpa using hcc
          have hres := ih h' habs'
          rw [DF.nrows_setCol] at hres
          exact hres

/-! ## What process_stock_data guarantees about the metadata columns -/

theorem process_stock_data_nrows (df : DF) (s p a : String) :
    (process_stock_data df s p a).nrows = (stage_date (stage_rename df)).nrows := by
  simp only [process_stock_data]
  rw [requiredFoldl_nrows, DF.nrows_setCol, DF.nrows_setCol, DF.nrows_setCol]

theorem process_stock_data_symbol (df : DF) (s p a : String) :
    (process_stock_data df s p a).getCol "symbol" =
      some (List.replicate (stage_date (stage_rename df)).nrows (Cell.str s)) := by
  simp only [process_stock_data]
  rw [requiredFoldl_getCol_present
    (by rw [DF.hasCol_setCol, DF.hasCol_setCol, DF.hasCol_setCol]; simp)]
  rw [DF.getCol_setCol_other _ _ (by decide), DF.getCol_setCol_other _ _ (by decide),
    DF.getCol_setCol_self]

theorem process_stock_data_period (df : DF) (s p a : String) :
    (process_stock_data df s p a).getCol "period" =
      some (List.replicate (stage_date (stage_rename df)).nrows (Cell.str p)) := by
  simp only [process_stock_data]
  rw [requiredFoldl_getCol_present
    (by rw [DF.hasCol_setCol, DF.hasCol_setCol]; simp)]
  rw [DF.getCol_setCol_other _ _ (by decide), DF.getCol_setCol_self]

theorem process_stock_data_adjust (df : DF) (s p a : String) :
    (process_stock_data df s p a).getCol "adjust" =
      some (List.replicate (stage_date (stage_rename df)).nrows
        (Cell.str (if a = "" then "None" else a))) := by
  simp only [process_stock_data]
  rw [requiredFoldl_getCol_present (by rw [DF.hasCol_setCol]; simp)]
  rw [DF.getCol_setCol_self]

theorem dataToInsert_process_period_adjust (df : DF) (s p a : String) :
    ∀ r ∈ dataToInsert (process_stock_data df s p a),
      r.period = Cell.str p ∧ r.adjust = Cell.str (if a = "" then "None" else a) := by
  intro r hr
  unfold dataToInsert at hr
  obtain ⟨i, hi, rfl⟩ := List.mem_map.mp hr
  have hi' : i < (stage_date (stage_rename df)).nrows := by
    rw [← process_stock_data_nrows df s p a]
    exact List.mem_range.mp hi
  constructor
  · dsimp only
    unfold rowGet
    rw [process_stock_data_period]
    exact getD_replicate hi'
  · dsimp only
    unfold rowGet
    rw [process_stock_data_adjust]
    exact getD_replicate hi'

/-! ## Uniqueness preservation for C10 -/

theorem dupFreeKeys_append {t : List HistRow} {r : HistRow}
    (h : dupFreeKeys t = true) (hall : ∀ q ∈ t, keyQuad q ≠ keyQuad r) :
    dupFreeKeys (t ++ [r]) = true := by
  induction t with
  | nil => simp [dupFreeKeys]
  | cons x t ih =>
    simp only [dupFreeKeys, Bool.and_eq_true, List.all_eq_true] at h
    simp only [List.cons_append, dupFreeKeys, Bool.and_eq_true, List.all_eq_true]
    refine ⟨?_, ih h.2 fun q hq => hall q (List.mem_cons_of_mem _ hq)⟩
    intro q hq
    rcases List.mem_append.mp hq with hq' | hq'
    · exact h.1 q hq'
    · rw [List.mem_singleton.mp hq']
      simp only [Bool.not_eq_true']
      exact beq_eq_false_iff_ne.mpr fun he =>
        hall x (List.mem_cons_self _ _) he.symm

theorem insertOrIgnore_dupFree {t : List HistRow} {r : HistRow}
    (h : dupFreeKeys t = true) (hp : r.period ≠ Cell.null) (ha : r.adjust ≠ Cell.null) :
    dupFreeKeys (insertOrIgnore t r) = true := by
  unfold insertOrIgnore
  split
  · exact h
  · split
    · exact h
    · rename_i hnull hanyf
      simp only [beq_iff_eq, Bool.or_eq_true, not_or] at hnull
      refine dupFreeKeys_append h fun q hq he => ?_
      apply hanyf
      refine List.any_eq_true.mpr ⟨q, hq, ?_⟩
      unfold uniqueConflict
      unfold keyQuad at he
      simp only [Prod.mk.injEq] at he
      obtain ⟨h1, h2, h3, h4⟩ := he
      simp [h1, h2, h3, h4, hnull.1, hnull.2, hp, ha]

theorem foldl_insertOrIgnore_dupFree {rs : List HistRow} {t : List HistRow}
    (h : dupFreeKeys t = true)
    (hrs : ∀ r ∈ rs, r.period ≠ Cell.null ∧ r.adjust ≠ Cell.null) :
    dupFreeKeys (rs.foldl insertOrIgnore t) = true := by
  induction rs generalizing t with
  | nil => exact h
  | cons x rs ih =>
    simp only [List.foldl_cons]
    have ⟨hp, ha⟩ := hrs x (List.mem_cons_self _ _)
    exact ih (insertOrIgnore_dupFree h hp ha)
      fun r hr => hrs r (List.mem_cons_of_mem _ hr)

theorem save_stocks_to_db_dupFree {dfs : List DF} {t : List HistRow}
    (h : dupFreeKeys t = true)
    (hdfs : ∀ df ∈ dfs, ∀ r ∈ dataToInsert df,
      r.period ≠ Cell.null ∧ r.adjust ≠ Cell.null) :
    dupFreeKeys (save_stocks_to_db dfs t) = true := by
  induction dfs generalizing t with
  | nil => exact h
  | cons df dfs ih =>
    unfold save_stocks_to_db
    simp only [List.foldl_cons]
    split
    · exact ih h fun q hq => hdfs q (List.mem_cons_of_mem _ hq)
    · exact ih (foldl_insertOrIgnore_dupFree h (hdfs df (List.mem_cons_self _ _)))
        fun q hq => hdfs q (List.mem_cons_of_mem _ hq)

/-! ## The claims -/

/-- C1: saving is idempotent on the table state. First conjunct: every row
the pipeline's process_stock_data produces carries non-NULL (string) period
and adjust values. Second conjunct: for dataframe lists whose rows carry
non-NULL period and adjust (as the pipeline guarantees), running
save_stocks_to_db a second time with the same list leaves the
stock_zh_a_hist table exactly as the first run left it. Third conjunct:
INSERT OR IGNORE of a row whose (symbol, date, period, adjust) key is
already present leaves the table (hence the stored row) unchanged. -/
theorem c1_save_stocks_to_db_idempotent :
    (∀ (df : DF) (s p a : String), ∀ r ∈ dataToInsert (process_stock_data df s p a),
      r.period = Cell.str p ∧ r.adjust = Cell.str (if a = "" then "None" else a))
    ∧ (∀ (df_list : List DF) (t : List HistRow),
      (∀ df ∈ df_list, ∀ r ∈ dataToInsert df,
        r.period ≠ Cell.null ∧ r.adjust ≠ Cell.null) →
      save_stocks_to_db df_list (save_stocks_to_db df_list t) =
        save_stocks_to_db df_list t)
    ∧ (∀ (t : List HistRow) (r : HistRow),
      (∃ q ∈ t, uniqueConflict q r = true) → insertOrIgnore t r = t) := by
  refine ⟨?_, ?_, ?_⟩
  · exact fun df s p a => dataToInsert_process_period_adjust df s p a
  · intro df_list t h
    apply save_stocks_to_db_noop
    intro df hdf r hr
    exact save_stocks_to_db_post h df hdf r hr
  · intro t r ⟨q, hq, hc⟩
    exact insertOrIgnore_covered (Or.inr (Or.inr ⟨q, hq, hc⟩))

/-- C10 counterexample: the claim quantifies over every save_stocks_to_db
call; a dataframe carrying an explicit None period yields two stored rows
with the same (symbol, date, period, adjust) quadruple, because SQLite's
UNIQUE index treats the NULL period values as distinct. -/
theorem c10_counterexample :
    dupFreeKeys (save_stocks_to_db [dfNullPeriod]
      (save_stocks_to_db [dfNullPeriod] init_db)) = false := by decide

/-- C10 (amended): starting from init_db, any sequence of save_stocks_to_db
calls whose rows carry non-NULL period and adjust values — which is what
the fetch pipeline produces — keeps at most one row per
(symbol, date, period, adjust) quadruple. -/
theorem c10_unique_invariant (seq : List (List DF))
    (h : ∀ dfs ∈ seq, ∀ df ∈ dfs, ∀ r ∈ dataToInsert df,
      r.period ≠ Cell.null ∧ r.adjust ≠ Cell.null) :
    dupFreeKeys (seq.foldl (fun t dfs => save_stocks_to_db dfs t) init_db) = true := by
  have base : dupFreeKeys init_db = true := rfl
  revert base
  generalize init_db = t0
  induction seq generalizing t0 with
  | nil => exact fun h0 => h0
  | cons dfs seq ih =>
    intro h0
    simp only [List.foldl_cons]
    exact ih (fun ds hds => h ds (List.mem_cons_of_mem _ hds)) (save_stocks_to_db dfs t0)
      (save_stocks_to_db_dupFree h0 (h dfs (List.mem_cons_self _ _)))

/-- C10 witness: one concrete pipeline-produced dataframe saved twice from
an initialized database keeps the key unique. -/
theorem c10_witness :
    dupFreeKeys (([[process_stock_data akDF1 "600000" "daily" "qfq"],
        [process_stock_data akDF1 "600000" "daily" "qfq"]].foldl
      (fun t dfs => save_stocks_to_db dfs t) init_db)) = true :=
  c10_unique_invariant _ (by decide)

/-- The table after fetching one unadjusted ("None") row for 600000 through
the pipeline and saving it. -/
def tNone : List HistRow :=
  save_stocks_to_db [process_stock_data akDF1 "600000" "daily" "None"] init_db

/-- The same for the "qfq" adjust setting. -/
def tQfq : List HistRow :=
  save_stocks_to_db [process_stock_data akDF1 "600000" "daily" "qfq"] init_db

/-- C2 counterexample: a stored row matches the literal triple
(600000, daily, None) with MAX(date) 2024-01-02, yet update_stock_data
starts the window at 1990-01-01 rather than 2024-01-03, because its query
binds the normalized adjust value "" instead of the stored "None". -/
theorem c2_counterexample :
    matchDates tNone "600000" "daily" "None" = ["2024-01-02"]
    ∧ update_stock_data tNone "600000" "daily" "None" "2025-06-30" =
        UpdateResult.fetch "1990-01-01" "2025-06-30" := by decide

/-- C2 (amended): update_stock_data computes the fetch window per
(symbol, period, normalized adjust) triple, where the normalization maps
the "None" setting to the SQL parameter "" (the stored rows themselves
carry "None", so the unadjusted triple never matches). Conjuncts 1-2: the
MAX(date) query returns exactly the lexicographically greatest stored date
among the rows matching the bound parameters, and NULL (None) exactly when
no row matches. Conjuncts 3-4: when a maximum exists the window is
[stored MAX(date) plus one day, today], and otherwise it starts at
1990-01-01 (both provided the window has not passed today). -/
theorem c2_high_water_mark :
    (∀ (t : List HistRow) (s p adj d : String), maxDateQ t s p adj = some d →
      d ∈ matchDates t s p adj ∧ ∀ e ∈ matchDates t s p adj, strLt d e = false)
    ∧ (∀ (t : List HistRow) (s p adj : String),
      maxDateQ t s p adj = none ↔ matchDates t s p adj = [])
    ∧ (∀ (t : List HistRow) (s p a today d : String) (x : SDate),
      maxDateQ t s p (normAdjust a) = some d → parseYMD d = some x →
      strLt today (formatYMD (nextDay x)) = false →
      update_stock_data t s p a today =
        UpdateResult.fetch (formatYMD (nextDay x)) today)
    ∧ (∀ (t : List HistRow) (s p a today : String),
      maxDateQ t s p (normAdjust a) = none → strLt today "1990-01-01" = false →
      update_stock_data t s p a today = UpdateResult.fetch "1990-01-01" today) := by
  refine ⟨?_, ?_, ?_, ?_⟩
  · intro t s p adj d h
    exact listMaxStr_spec h
  · intro t s p adj
    unfold maxDateQ
    exact listMaxStr_none
  · intro t s p a today d x hmax hparse htoday
    unfold update_stock_data
    simp [hmax, hparse, htoday]
  · intro t s p a today hmax htoday
    unfold update_stock_data
    simp [hmax, htoday]

/-- C2 witness: at a concrete qfq table the window starts the day after the
stored maximum. -/
theorem c2_witness :
    update_stock_data tQfq "600000" "daily" "qfq" "2025-06-30" =
      UpdateResult.fetch "2024-01-03" "2025-06-30" :=
  (c2_high_water_mark.2.2.1) tQfq "600000" "daily" "qfq" "2025-06-30"
    "2024-01-02" ⟨2024, 1, 2⟩ (by decide) (by decide) (by decide)

/-- C3: the storage key does not round-trip for the "None" (unadjusted)
setting. Rows saved by the pipeline under adjust "None" are stored with the
literal value "None", but both update_stock_data's MAX(date) query and
query_stocks_data bind the normalized parameter "", so the saved data is
never found again: the table is non-empty, every stored row carries
adjust "None", yet the high-water query returns NULL and the SELECT returns
nothing. For "qfq" (and likewise "hfq") the key does round-trip. -/
theorem c3_adjust_roundtrip_broken :
    tNone ≠ []
    ∧ (∀ r ∈ tNone, r.adjust = Cell.str "None")
    ∧ maxDateQ tNone "600000" "daily" (normAdjust "None") = none
    ∧ query_stocks_data "600000" none none "daily" "None" tNone false = []
    ∧ maxDateQ tQfq "600000" "daily" (normAdjust "qfq") = some "2024-01-02"
    ∧ query_stocks_data "600000" none none "daily" "qfq" tQfq false = tQfq := by
  refine ⟨by decide, by decide, by decide, ?_, by decide, ?_⟩
  · decide
  · decide

/-- The start date update_stock_data derives from the stored history:
MAX(date) plus one day rendered as "%Y-%m-%d", or 1990-01-01 when no row
matches; None when the stored maximum does not parse. -/
def computeStartDate (t : List HistRow) (symbol period adjust : String) : Option String :=
  match maxDateQ t symbol period (normAdjust adjust) with
  | none => some "1990-01-01"
  | some d => (parseYMD d).map fun x => formatYMD (nextDay x)

/-- C4: the incremental-update decision is the single string comparison
`start_date > end_date`. update_stock_data returns None (performs no fetch)
exactly when the computed start date compares above today, otherwise it
fetches the window [start date, today]; and on "%Y-%m-%d"-formatted dates
the string comparison agrees with chronological order (third conjunct). -/
theorem c4_single_date_comparison :
    (∀ (t : List HistRow) (s p a today : String),
      update_stock_data t s p a today = UpdateResult.uptodate ↔
        ∃ st, computeStartDate t s p a = some st ∧ strLt today st = true)
    ∧ (∀ (t : List HistRow) (s p a today st : String),
      computeStartDate t s p a = some st → strLt today st = false →
      update_stock_data t s p a today = UpdateResult.fetch st today)
    ∧ (∀ x y : SDate, x.y < 10000 → y.y < 10000 → x.m < 100 → y.m < 100 →
      x.d < 100 → y.d < 100 →
      (strLt (formatYMD x) (formatYMD y) = true ↔ dateBefore x y)) := by
  refine ⟨?_, ?_, ?_⟩
  · intro t s p a today
    unfold update_stock_data computeStartDate
    cases hmax : maxDateQ t s p (normAdjust a) with
    | none =>
      constructor
      · intro h
        by_cases hlt : strLt today "1990-01-01" = true
        · exact ⟨"1990-01-01", rfl, hlt⟩
        · rw [if_neg hlt] at h
          simp at h
      · rintro ⟨st, hst, hlt⟩
        obtain rfl : "1990-01-01" = st := Option.some.inj hst
        rw [if_pos hlt]
    | some d =>
      cases hparse : parseYMD d with
      | none => simp [hparse]
      | some x =>
        simp only [hparse, Option.map_some']
        constructor
        · intro h
          by_cases hlt : strLt today (formatYMD (nextDay x)) = true
          · exact ⟨formatYMD (nextDay x), rfl, hlt⟩
          · rw [if_neg hlt] at h
            simp at h
        · rintro ⟨st, hst, hlt⟩
          obtain rfl : formatYMD (nextDay x) = st := Option.some.inj hst
          rw [if_pos hlt]
  · intro t s p a today st hst htoday
    unfold update_stock_data
    unfold computeStartDate at hst
    cases hmax : maxDateQ t s p (normAdjust a) with
    | none =>
      simp only [hmax] at hst ⊢
      obtain rfl : "1990-01-01" = st := Option.some.inj hst
      rw [if_neg (by rw [htoday]; simp)]
    | some d =>
      simp only [hmax] at hst ⊢
      cases hparse : parseYMD d with
      | none => simp [hparse] at hst
      | some x =>
        simp only [hparse, Option.map_some'] at hst ⊢
        obtain rfl : formatYMD (nextDay x) = st := Option.some.inj hst
        rw [if_neg (by rw [htoday]; simp)]
  · intro x y h1 h2 h3 h4 h5 h6
    exact strLt_formatYMD h1 h2 h3 h4 h5 h6

theorem list_map_congr {α β : Type} {f g : α → β} :
    ∀ {l : List α}, (∀ x ∈ l, f x = g x) → l.map f = l.map g := by
  intro l
  induction l with
  | nil => intro _; rfl
  | cons x l ih =>
    intro h
    simp only [List.map_cons]
    rw [h x (List.mem_cons_self _ _), ih fun y hy => h y (List.mem_cons_of_mem _ hy)]

theorem safeFetchAux_spec (oracle : Nat → FetchOutcome) (s p a : String) (m : Nat) :
    ∀ remaining, remaining ≤ m →
      (safeFetchAux oracle s p a m remaining).attempts ≤ remaining
      ∧ (1 ≤ remaining → 1 ≤ (safeFetchAux oracle s p a m remaining).attempts)
      ∧ (safeFetchAux oracle s p a m remaining).waits =
          (List.range ((safeFetchAux oracle s p a m remaining).attempts - 1)).map
            (fun k => 2 ^ (m - remaining + k + 1))
      ∧ (∀ k, k + 1 < (safeFetchAux oracle s p a m remaining).attempts →
          oracle (m - remaining + k) = FetchOutcome.reqExc)
      ∧ ((safeFetchAux oracle s p a m remaining).result = Except.ok none ∨
          ∃ df, df.nrows ≠ 0 ∧ (safeFetchAux oracle s p a m remaining).result =
            Except.ok (some (process_stock_data df s p a))) := by
  intro remaining
  induction remaining with
  | zero =>
    intro _
    exact ⟨Nat.le_refl 0, fun h => absurd h (by omega), rfl,
      fun k hk => absurd hk (Nat.not_lt.mpr (Nat.zero_le _)), Or.inl rfl⟩
  | succ remaining ih =>
    intro hle
    have hrec := ih (by omega)
    simp only [safeFetchAux]
    cases ho : oracle (m - (remaining + 1)) with
    | ok df =>
      dsimp only
      by_cases hn : df.nrows = 0
      · rw [if_pos hn]
        exact ⟨Nat.succ_le_succ (Nat.zero_le _), fun _ => Nat.le_refl 1, rfl,
          fun k hk => absurd hk (Nat.not_lt.mpr (Nat.succ_le_succ (Nat.zero_le _))),
          Or.inl rfl⟩
      · rw [if_neg hn]
        exact ⟨Nat.succ_le_succ (Nat.zero_le _), fun _ => Nat.le_refl 1, rfl,
          fun k hk => absurd hk (Nat.not_lt.mpr (Nat.succ_le_succ (Nat.zero_le _))),
          Or.inr ⟨df, hn, rfl⟩⟩
    | noneDf =>
      exact ⟨Nat.succ_le_succ (Nat.zero_le _), fun _ => Nat.le_refl 1, rfl,
        fun k hk => absurd hk (Nat.not_lt.mpr (Nat.succ_le_succ (Nat.zero_le _))),
        Or.inl rfl⟩
    | otherExc =>
      exact ⟨Nat.succ_le_succ (Nat.zero_le _), fun _ => Nat.le_refl 1, rfl,
        fun k hk => absurd hk (Nat.not_lt.mpr (Nat.succ_le_succ (Nat.zero_le _))),
        Or.inl rfl⟩
    | reqExc =>
      dsimp only
      by_cases hatt : m - (remaining + 1) < m - 1
      · rw [if_pos hatt]
        have hrem1 : 1 ≤ remaining := by omega
        obtain ⟨h1, h2, h3, h4, h5⟩ := hrec
        have hbase : m - remaining = m - (remaining + 1) + 1 := by omega
        have hge1 := h2 hrem1
        obtain ⟨n, hn⟩ : ∃ n, (safeFetchAux oracle s p a m remaining).attempts = n + 1 :=
          ⟨_, (Nat.succ_pred_eq_of_pos hge1).symm⟩
        refine ⟨Nat.succ_le_succ h1, fun _ => Nat.succ_le_succ (Nat.zero_le _), ?_, ?_, ?_⟩
        · show 2 ^ (m - (remaining + 1) + 1) :: (safeFetchAux oracle s p a m remaining).waits =
            (List.range ((safeFetchAux oracle s p a m remaining).attempts + 1 - 1)).map
              (fun k => 2 ^ (m - (remaining + 1) + k + 1))
          rw [h3, hn, hbase, Nat.add_sub_cancel, Nat.add_sub_cancel,
            List.range_succ_eq_map]
          simp only [List.map_cons, List.map_map]
          refine congrArg₂ List.cons (by norm_num) ?_
          refine list_map_congr ?_
          intro k _
          simp only [Function.comp_apply]
          congr 1
          omega
        · show ∀ k, k + 1 < (safeFetchAux oracle s p a m remaining).attempts + 1 →
            oracle (m - (remaining + 1) + k) = FetchOutcome.reqExc
          intro k hk
          cases k with
          | zero => simpa using ho
          | succ j =>
            have hj := h4 j (by omega)
            have heq : m - (remaining + 1) + (j + 1) = m - remaining + j := by omega
            rw [heq]
            exact hj
        · exact h5
      · rw [if_neg hatt]
        exact ⟨Nat.succ_le_succ (Nat.zero_le _), fun _ => Nat.le_refl 1, rfl,
          fun k hk => absurd hk (Nat.not_lt.mpr (Nat.succ_le_succ (Nat.zero_le _))),
          Or.inl rfl⟩

/-- C5: bounded retry with exponential backoff, never raising. For every
attempt oracle: at most the effective max_retries vendor calls are made
(the `or` fallback maps None and 0 to the configured 3); the sleeps
performed are exactly 2^(k+1) seconds after each request-exception attempt
k (0-based) that is followed by another attempt; the loop only continues
past an attempt on a request exception; and the call always returns — None
on every failure mode, or the processed dataframe — never propagating an
exception (`Except.error` is unreachable). -/
theorem c5_safe_fetch_bounded_retry :
    ∀ (oracle : Nat → FetchOutcome)
      (symbol start_date end_date period adjust : String) (max_retries : Option Nat),
      (safe_fetch_stock_data oracle symbol start_date end_date period adjust
          max_retries).attempts ≤ effectiveMaxRetries max_retries
      ∧ (safe_fetch_stock_data oracle symbol start_date end_date period adjust
          max_retries).waits =
        (List.range ((safe_fetch_stock_data oracle symbol start_date end_date period
          adjust max_retries).attempts - 1)).map (fun k => 2 ^ (k + 1))
      ∧ (∀ k, k + 1 < (safe_fetch_stock_data oracle symbol start_date end_date period
          adjust max_retries).attempts → oracle k = FetchOutcome.reqExc)
      ∧ ((safe_fetch_stock_data oracle symbol start_date end_date period adjust
            max_retries).result = Except.ok none
        ∨ ∃ df, df.nrows ≠ 0
            ∧ (safe_fetch_stock_data oracle symbol start_date end_date period adjust
                max_retries).result =
              Except.ok (some (process_stock_data df symbol period adjust))) := by
  intro oracle symbol start_date end_date period adjust max_retries
  obtain ⟨h1, _, h3, h4, h5⟩ := safeFetchAux_spec oracle symbol period adjust
    (effectiveMaxRetries max_retries) (effectiveMaxRetries max_retries) (Nat.le_refl _)
  rw [Nat.sub_self] at h3 h4
  refine ⟨h1, by simpa using h3, ?_, h5⟩
  intro k hk
  simpa using h4 k hk

/-- C6: schema normalization is not total over the claimed source schemas.
For a dataframe that carries a mapped date-name column (日期) while lacking
a "date" column — the shape of a modern akshare response with its unnamed
RangeIndex — reset_index introduces an "index" column and the rename then
maps both "index" and "日期" to "date" (first conjunct: the renamed frame
carries the label "date" twice). In pandas, `df["date"]` is then a
two-column DataFrame and `pd.to_datetime` raises ValueError, so
process_stock_data raises instead of returning a normalized frame. On a
single-date-column schema (dates on the index, second conjunct) the
normalization does produce the full table shape. -/
theorem c6_duplicate_date_label :
    (stage_rename akDFdup).colNames =
      ["date", "date", "open", "close", "high", "low", "volume"]
    ∧ process_stock_data akDF1 "600000" "daily" "qfq" =
        { indexName := none
          indexVals := [Cell.dt ⟨2024, 1, 2⟩]
          cols := [("date", [Cell.str "2024-01-02"]), ("open", [Cell.num 10]),
                   ("close", [Cell.num 11]), ("high", [Cell.num 12]),
                   ("low", [Cell.num 9]), ("volume", [Cell.num 1000]),
                   ("amount", [Cell.num 9999]), ("symbol", [Cell.str "600000"]),
                   ("period", [Cell.str "daily"]), ("adjust", [Cell.str "qfq"])] } :=
  ⟨by decide, by decide⟩

/-! ## Lemmas for process_symbols -/

theorem sepNorm_idem (c : Char) : sepNorm (sepNorm c) = sepNorm c := by
  unfold sepNorm
  split <;> simp_all

theorem splitOnChar_cons (sep c : Char) (l : List Char) :
    splitOnChar sep (c :: l) =
      if c = sep then [] :: splitOnChar sep l
      else
        match splitOnChar sep l with
        | [] => [[c]]
        | t :: rest => (c :: t) :: rest := rfl

theorem splitOnChar_ne_nil (sep : Char) (l : List Char) : splitOnChar sep l ≠ [] := by
  induction l with
  | nil => simp [splitOnChar]
  | cons c l ih =>
    rw [splitOnChar_cons]
    split
    · simp
    · split
      · simp
      · simp

theorem splitOnChar_chars {sep : Char} {l : List Char} :
    ∀ t ∈ splitOnChar sep l, ∀ c ∈ t, c ∈ l ∧ c ≠ sep := by
  induction l with
  | nil =>
    intro t ht c hc
    simp only [splitOnChar, List.foldr_nil, List.mem_singleton] at ht
    subst ht
    simp at hc
  | cons x l ih =>
    intro t ht c hc
    rw [splitOnChar_cons] at ht
    by_cases hx : x = sep
    · rw [if_pos hx] at ht
      rcases List.mem_cons.mp ht with rfl | ht'
      · simp at hc
      · have h := ih t ht' c hc
        exact ⟨List.mem_cons_of_mem _ h.1, h.2⟩
    · rw [if_neg hx] at ht
      cases hsp : splitOnChar sep l with
      | nil => exact absurd hsp (splitOnChar_ne_nil sep l)
      | cons t0 rest =>
        rw [hsp] at ht
        rcases List.mem_cons.mp ht with rfl | ht'
        · rcases List.mem_cons.mp hc with rfl | hc'
          · exact ⟨List.mem_cons_self _ _, hx⟩
          · have h := ih t0 (by rw [hsp]; exact List.mem_cons_self _ _) c hc'
            exact ⟨List.mem_cons_of_mem _ h.1, h.2⟩
        · have h := ih t (by rw [hsp]; exact List.mem_cons_of_mem _ ht') c hc
          exact ⟨List.mem_cons_of_mem _ h.1, h.2⟩

theorem pyStrip_eq_nil {t : List Char} (h : ∀ c ∈ t, pyIsSpace c = true) :
    pyStrip t = [] := by
  unfold pyStrip
  rw [List.dropWhile_eq_nil_iff.mpr h]
  rfl

/-- C7: process_symbols treats fullwidth commas, semicolons and spaces as
comma separators (conjunct 3: normalizing the separators first changes
nothing), strips each token and drops empty ones (conjunct 2: every
returned symbol is a non-empty stripped split piece), and deduplicates
(conjunct 1). Conjunct 4: an input of separators and whitespace only
yields the empty list, upon which fetch_multiple_stocks returns [] with
zero vendor fetches. -/
theorem c7_process_symbols :
    (∀ s : String, (process_symbols s).Nodup)
    ∧ (∀ s : String, ∀ x ∈ process_symbols s, x ≠ ""
        ∧ ∃ t ∈ splitOnChar ',' (s.data.map sepNorm), x = String.mk (pyStrip t))
    ∧ (∀ s : String, process_symbols (String.mk (s.data.map sepNorm)) = process_symbols s)
    ∧ (∀ s : String, (∀ c ∈ s.data, sepNorm c = ',' ∨ pyIsSpace c = true) →
        process_symbols s = []
        ∧ ∀ fetchResult, fetch_multiple_stocks fetchResult s = ([], 0)) := by
  refine ⟨?_, ?_, ?_, ?_⟩
  · intro s
    exact List.nodup_dedup _
  · intro s x hx
    unfold process_symbols at hx
    obtain ⟨hmem, hpred⟩ := List.mem_filter.mp (List.mem_dedup.mp hx)
    obtain ⟨t, ht, rfl⟩ := List.mem_map.mp hmem
    exact ⟨by simpa using hpred, ⟨t, ht, rfl⟩⟩
  · intro s
    unfold process_symbols
    have hmm : (s.data.map sepNorm).map sepNorm = s.data.map sepNorm := by
      rw [List.map_map]
      exact list_map_congr fun x _ => sepNorm_idem x
    rw [show (String.mk (s.data.map sepNorm)).data = s.data.map sepNorm from rfl, hmm]
  · intro s hsep
    have hps : process_symbols s = [] := by
      simp only [process_symbols]
      have hfilter : (((splitOnChar ',' (s.data.map sepNorm)).map
          (fun t => String.mk (pyStrip t))).filter (fun t => t != "")) = [] := by
        rw [List.filter_eq_nil_iff]
        intro x hx
        obtain ⟨t, ht, rfl⟩ := List.mem_map.mp hx
        have hall : ∀ c ∈ t, pyIsSpace c = true := by
          intro c hc
          obtain ⟨hcl, hcne⟩ := splitOnChar_chars t ht c hc
          obtain ⟨c0, hc0, rfl⟩ := List.mem_map.mp hcl
          rcases hsep c0 hc0 with h' | h'
          · exact absurd h' hcne
          · by_cases hc0s : c0 = '，' ∨ c0 = ';' ∨ c0 = ' '
            · exact absurd (by unfold sepNorm; rw [if_pos hc0s]) hcne
            · rw [show sepNorm c0 = c0 from by unfold sepNorm; rw [if_neg hc0s]]
              exact h'
        rw [pyStrip_eq_nil hall]
        decide
      rw [hfilter]
      rfl
    refine ⟨hps, ?_⟩
    intro fetchResult
    unfold fetch_multiple_stocks
    rw [hps]
    rfl

/-! ## Lemmas for the US save path -/

theorem DF.colNames_reset_index (df : DF) :
    df.reset_index.colNames = (df.indexName.getD "index") :: df.colNames := rfl

theorem DF.colNames_mapNames (df : DF) (f : String → String) :
    (DF.mk df.indexName df.indexVals
      (df.cols.map fun p => (f p.1, p.2))).colNames = df.colNames.map f := by
  unfold DF.colNames
  simp [List.map_map, Function.comp]

/-- C8 counterexample: the first save of a fetched yfinance frame succeeds
(SQLite resolves the frame's duplicate Date/date and Symbol/symbol labels
case-insensitively, first occurrence winning), but saving the same fetched
frame again returns False and writes nothing: the plain INSERT (no OR
IGNORE) violates UNIQUE(symbol, date). The claim's "returns True for every
symbol whose fetch returns a non-empty dataframe" therefore fails. -/
theorem c8_counterexample :
    (save_stock_data "AAPL" yfDF init_database).1 = true
    ∧ (save_stock_data "AAPL" yfDF init_database).2 ≠ []
    ∧ save_stock_data "AAPL" yfDF (save_stock_data "AAPL" yfDF init_database).2 =
        (false, (save_stock_data "AAPL" yfDF init_database).2) := by
  refine ⟨by decide, by decide, by decide⟩

/-- C8 (amended): for a yfinance-shaped frame (Date index; Open through
Stock Splits plus the added Symbol column), every column of the frame
save_stock_data actually writes — including the leftover Date and Symbol
columns — resolves to a stocks-table column case-insensitively (first
conjunct), so to_sql succeeds and save_stock_data writes the rows and
returns True exactly when none of the inserted (symbol, date) keys
collides with a stored row or NOT NULL constraint; on a collision the
INSERT raises, save_stock_data returns False and the table is unchanged. -/
theorem c8_save_stock_data (symbol : String) (data : DF) (table : List USRow)
    (hidx : data.indexName = some "Date")
    (hcols : data.colNames = ["Open", "High", "Low", "Close", "Volume", "Dividends",
      "Stock Splits", "Symbol"]) :
    (prepared_data symbol data).colNames = ["Date", "open", "high", "low", "close",
      "volume", "dividends", "stock_splits", "Symbol", "date", "symbol"]
    ∧ (∀ t', usInsertAll table ((List.range (prepared_data symbol data).nrows).map
          (fun i => usRowOfFrame (prepared_data symbol data) i)) = some t' →
        save_stock_data symbol data table = (true, t'))
    ∧ (usInsertAll table ((List.range (prepared_data symbol data).nrows).map
          (fun i => usRowOfFrame (prepared_data symbol data) i)) = none →
        save_stock_data symbol data table = (false, table)) := by
  have hd1names : data.reset_index.colNames = "Date" :: data.colNames := by
    rw [DF.colNames_reset_index, hidx]
    rfl
  have hD : data.reset_index.hasCol "Date" = true := by
    unfold DF.hasCol
    rw [hd1names]
    simp
  have hdate : data.reset_index.hasCol "date" = false := by
    unfold DF.hasCol
    rw [hd1names, hcols]
    decide
  have hsym : data.reset_index.hasCol "symbol" = false := by
    unfold DF.hasCol
    rw [hd1names, hcols]
    decide
  have hnames : (prepared_data symbol data).colNames = ["Date", "open", "high", "low",
      "close", "volume", "dividends", "stock_splits", "Symbol", "date", "symbol"] := by
    simp only [prepared_data]
    rw [if_pos hD]
    rw [DF.colNames_mapNames]
    rw [DF.colNames_setCol]
    rw [DF.hasCol_setCol]
    rw [if_neg (show ¬((data.reset_index.hasCol "symbol" || ("symbol" == "date")) = true)
      from by rw [hsym]; decide)]
    rw [DF.colNames_setCol]
    rw [if_neg (show ¬(data.reset_index.hasCol "date" = true) from by
      rw [hdate]; decide)]
    rw [hd1names, hcols]
    decide
  refine ⟨hnames, ?_, ?_⟩
  · intro t' hins
    unfold save_stock_data to_sql_append
    rw [if_pos (show ((prepared_data symbol data).colNames.all
        fun c => stocksTableCols.any fun tc => sqlNameEq c tc) = true by
      rw [hnames]; decide)]
    rw [hins]
  · intro hins
    unfold save_stock_data to_sql_append
    rw [if_pos (show ((prepared_data symbol data).colNames.all
        fun c => stocksTableCols.any fun tc => sqlNameEq c tc) = true by
      rw [hnames]; decide)]
    rw [hins]

/-- C8 witness: the amended theorem applied at the concrete yfinance frame
and the empty table. -/
theorem c8_witness :
    (prepared_data "AAPL" yfDF).colNames = ["Date", "open", "high", "low", "close",
      "volume", "dividends", "stock_splits", "Symbol", "date", "symbol"] :=
  (c8_save_stock_data "AAPL" yfDF [] rfl rfl).1

/-- A row as some external writer could store it: adjust is the empty
string (the value the queries bind for the "None" setting). -/
def rowEmptyAdjust : HistRow :=
  { symbol := Cell.str "600000", date := Cell.str "2024-01-02", opn := Cell.null,
    close := Cell.null, high := Cell.null, low := Cell.null, volume := Cell.null,
    amount := Cell.null, amplitude := Cell.null, change_percent := Cell.null,
    change := Cell.null, turnover := Cell.null, period := Cell.str "daily",
    adjust := Cell.str "" }

/-- C9 counterexample: requesting adjust "None" returns a row whose stored
adjust is "" — not the requested value — because the SELECT binds the
normalized parameter "". The claim's "rows whose adjust match the
requested values" fails as stated. -/
theorem c9_counterexample :
    query_stocks_data "600000" none none "daily" "None" [rowEmptyAdjust] false =
      [rowEmptyAdjust]
    ∧ rowEmptyAdjust.adjust ≠ Cell.str "None" := by
  refine ⟨by decide, by decide⟩

/-- C9 (amended): query_stocks_data is total (the except-branch is modelled
by the driverFail flag) and its result is fully filtered and ordered: every
returned row is a stored row whose symbol is one of the parsed symbols,
whose period equals the requested period, whose adjust equals the requested
adjust after normalization ("" substituted for "None"), and which meets the
optional date bounds; the result is sorted ascending by (symbol, date); it
is empty when the parsed symbol list is empty or the driver fails; and
otherwise it holds exactly the stored rows passing the WHERE clause. -/
theorem c9_query_filtered_sorted (symbols_str : String) (sd ed : Option String)
    (p a : String) (t : List HistRow) (fail : Bool) :
    (∀ r ∈ query_stocks_data symbols_str sd ed p a t fail,
      r ∈ t ∧ (∃ s ∈ process_symbols symbols_str, r.symbol = Cell.str s)
      ∧ r.period = Cell.str p ∧ r.adjust = Cell.str (normAdjust a)
      ∧ (∀ sdv, sd = some sdv → sdv ≠ "" → cellGeStr r.date sdv = true)
      ∧ (∀ edv, ed = some edv → edv ≠ "" → cellLeStr r.date edv = true))
    ∧ List.Sorted RowLe (query_stocks_data symbols_str sd ed p a t fail)
    ∧ (process_symbols symbols_str = [] →
        query_stocks_data symbols_str sd ed p a t fail = [])
    ∧ (fail = true → query_stocks_data symbols_str sd ed p a t fail = [])
    ∧ (process_symbols symbols_str ≠ [] → fail = false → ∀ r,
        r ∈ query_stocks_data symbols_str sd ed p a t fail ↔
          r ∈ t ∧ queryFilter (process_symbols symbols_str) p (normAdjust a)
            sd ed r = true) := by
  have hmem : ∀ r, r ∈ query_stocks_data symbols_str sd ed p a t fail ↔
      ((process_symbols symbols_str).isEmpty = false ∧ fail = false ∧ r ∈ t ∧
        queryFilter (process_symbols symbols_str) p (normAdjust a) sd ed r = true) := by
    intro r
    unfold query_stocks_data
    by_cases he : (process_symbols symbols_str).isEmpty = true
    · rw [if_pos he]
      simp [he]
    · rw [if_neg he]
      have he' : (process_symbols symbols_str).isEmpty = false :=
        Bool.eq_false_iff.mpr he
      by_cases hf : fail = true
      · rw [if_pos hf]
        simp [hf]
      · rw [if_neg hf]
        have hf' : fail = false := Bool.eq_false_iff.mpr hf
        rw [List.Perm.mem_iff (List.perm_insertionSort RowLe _)]
        simp [List.mem_filter, he', hf']
  refine ⟨?_, ?_, ?_, ?_, ?_⟩
  · intro r hr
    obtain ⟨-, -, hrt, hqf⟩ := (hmem r).mp hr
    unfold queryFilter at hqf
    simp only [Bool.and_eq_true] at hqf
    obtain ⟨⟨⟨⟨hsym, hper⟩, hadj⟩, hsd⟩, hed⟩ := hqf
    obtain ⟨s, hs, hbeq⟩ := List.any_eq_true.mp hsym
    refine ⟨hrt, ⟨s, hs, by simpa using hbeq⟩, by simpa using hper,
      by simpa using hadj, ?_, ?_⟩
    · intro sdv hsdv hne
      simp only [hsdv] at hsd
      rwa [if_neg hne] at hsd
    · intro edv hedv hne
      simp only [hedv] at hed
      rwa [if_neg hne] at hed
  · simp only [query_stocks_data]
    split
    · exact List.sorted_nil
    · split
      · exact List.sorted_nil
      · exact List.sorted_insertionSort RowLe _
  · intro h
    simp only [query_stocks_data]
    rw [if_pos (by rw [h]; rfl)]
  · intro h
    simp only [query_stocks_data, h]
    split
    · rfl
    · rfl
  · intro hne hf r
    rw [hmem r]
    have he' : (process_symbols symbols_str).isEmpty = false := by
      cases hpe : (process_symbols symbols_str) with
      | nil => exact absurd hpe hne
      | cons x l => rfl
    simp [he', hf]

example : parseYMD "2024-01-02" = some ⟨2024, 1, 2⟩ := by decide
example : parseYMD "2024-02-30" = none := by decide
example : formatYMD ⟨2024, 1, 2⟩ = "2024-01-02" := by decide
example : nextDay ⟨2024, 2, 28⟩ = ⟨2024, 2, 29⟩ := by decide
example : nextDay ⟨2023, 12, 31⟩ = ⟨2024, 1, 1⟩ := by decide
example : strLt "2024-01-02" "2024-01-10" = true := by decide
